import Mathlib

/-!
# Verification of the mlpack `allknn` driver against its specification

This file gives a shallow embedding of `src/mlpack/methods/neighbor_search/allknn_main.cpp`
(the only source file of the repository) together with a model — written from the
specification — of the tree-building and neighbor-search core (`BinarySpaceTree`,
`NeighborSearch`) whose code is not part of the repository snapshot.

Conventions:
* points are functions `ℕ → ℚ` restricted to a dimension `d`; distances are the exact
  squared Euclidean distance (order-equivalent to Euclidean distance, and exactly
  representable over `ℚ`);
* matrices are column lists (Armadillo is column-major and the program indexes columns);
* the candidate set per query point is a list of `(distance, index)` pairs kept sorted by
  *descending* distance, so the current worst candidate is at the head; the ascending
  order required on output is produced by `finalizeCand`.
-/

namespace AllKnn

/-- A point: coordinate function.  Only indices `< d` are ever used. -/
abbrev Point : Type := ℕ → ℚ

/-- An indexed point `(index, coordinates)`. -/
abbrev IPoint : Type := ℕ × Point

/-- A candidate list: `(squared distance, reference index)` pairs, descending distance. -/
abbrev Cand : Type := List (ℚ × ℕ)

/-- Squared Euclidean distance between two `d`-dimensional points. -/
def sqDist (d : ℕ) (p q : Point) : ℚ :=
  ∑ i ∈ Finset.range d, (p i - q i) ^ 2

/-! ## CandidateSet

Modelled from the spec: the `CandidateSet` component (spec §3, §4.4) of the
`NeighborSearch` core, which is not under `src/`: a bounded collection of at most `k`
`(distance, reference index)` pairs with "insert if better than current worst". -/

/-- Insert into a descending-sorted candidate list, keeping the order.  An entry with a
distance equal to an existing one is placed on the *worse* side (head side), so that on
the ascending output order the first-found entry wins, as the spec's tie rule demands. -/
def insDesc : Cand → ℚ × ℕ → Cand
  | [], e => [e]
  | x :: xs, e => if e.1 < x.1 then x :: insDesc xs e else e :: x :: xs

/-- The current worst distance of a candidate list: `⊤` while fewer than `k` candidates
are held, otherwise the head (largest) distance. -/
def worst (k : ℕ) (c : Cand) : WithTop ℚ :=
  if c.length < k then ⊤ else
    match c with
    | [] => ⊤
    | w :: _ => (w.1 : WithTop ℚ)

/-- Modelled from the spec: `CandidateSet.Insert` (spec §4.4).  If fewer than `k` entries
are held, insert unconditionally; otherwise insert only if strictly better than the
current worst, evicting the worst entry. -/
def insertEntry (k : ℕ) (c : Cand) (dst : ℚ) (i : ℕ) : Cand :=
  if c.length < k then insDesc c (dst, i)
  else
    match c with
    | [] => []
    | w :: rest => if dst < w.1 then insDesc rest (dst, i) else w :: rest

/-- Modelled from the spec: `CandidateSet.Finalize` (spec §4.4) — the entries in
ascending distance order. -/
def finalizeCand (c : Cand) : Cand := c.reverse

/-- `rip` cannot improve candidate list `c` for query `q`: its exact entry is already
present, or its distance is no better than the current worst. -/
def covered (d k : ℕ) (q : Point) (c : Cand) (rip : IPoint) : Prop :=
  (sqDist d q rip.2, rip.1) ∈ c ∨ worst k c ≤ (sqDist d q rip.2 : WithTop ℚ)

/-- Structural invariant of a candidate list for query `q` over reference pool `R`. -/
structure CandBase (d k : ℕ) (q : Point) (R : List IPoint) (c : Cand) : Prop where
  sorted : c.Pairwise fun x y => y.1 ≤ x.1
  len_le : c.length ≤ k
  nodup : (c.map Prod.snd).Nodup
  genuine : ∀ e ∈ c, ∃ p, (e.2, p) ∈ R ∧ e.1 = sqDist d q p

theorem insDesc_perm (c : Cand) (e : ℚ × ℕ) : List.Perm (insDesc c e) (e :: c) := by
  induction c with
  | nil => simp [insDesc]
  | cons x xs ih =>
    by_cases h : e.1 < x.1
    · simp only [insDesc, if_pos h]
      exact (ih.cons x).trans (List.Perm.swap e x xs)
    · simp [insDesc, if_neg h]

theorem insDesc_length (c : Cand) (e : ℚ × ℕ) :
    (insDesc c e).length = c.length + 1 := by
  simpa using (insDesc_perm c e).length_eq

theorem mem_insDesc {c : Cand} {e x : ℚ × ℕ} :
    x ∈ insDesc c e ↔ x = e ∨ x ∈ c := by
  rw [(insDesc_perm c e).mem_iff]; simp

theorem insDesc_sorted {c : Cand} (hs : c.Pairwise fun x y => y.1 ≤ x.1) (e : ℚ × ℕ) :
    (insDesc c e).Pairwise fun x y => y.1 ≤ x.1 := by
  induction c with
  | nil => simp [insDesc]
  | cons x xs ih =>
    rcases List.pairwise_cons.1 hs with ⟨hx, hxs⟩
    by_cases h : e.1 < x.1
    · simp only [insDesc, if_pos h]
      refine List.pairwise_cons.2 ⟨?_, ih hxs⟩
      intro y hy
      rcases mem_insDesc.1 hy with rfl | hy
      · exact le_of_lt h
      · exact hx y hy
    · simp only [insDesc, if_neg h]
      refine List.pairwise_cons.2 ⟨?_, hs⟩
      intro y hy
      rcases List.mem_cons.1 hy with rfl | hy
      · exact le_of_not_lt h
      · exact le_trans (hx y hy) (le_of_not_lt h)

theorem insDesc_head {c : Cand} {e : ℚ × ℕ} :
    (insDesc c e).head? = some e ∨
      ∃ x xs, c = x :: xs ∧ e.1 < x.1 ∧ (insDesc c e).head? = some x := by
  cases c with
  | nil => left; simp [insDesc]
  | cons x xs =>
    by_cases h : e.1 < x.1
    · right; exact ⟨x, xs, rfl, h, by simp [insDesc, if_pos h]⟩
    · left; simp [insDesc, if_neg h]

/-- Descending-sorted list: every entry is at most the head. -/
theorem le_head_of_sorted {c : Cand} (hs : c.Pairwise fun x y => y.1 ≤ x.1)
    {w : ℚ × ℕ} (hw : c.head? = some w) {e : ℚ × ℕ} (he : e ∈ c) : e.1 ≤ w.1 := by
  cases c with
  | nil => simp at he
  | cons x xs =>
    simp only [List.head?_cons, Option.some.injEq] at hw
    subst hw
    rcases List.mem_cons.1 he with rfl | he
    · exact le_rfl
    · exact (List.pairwise_cons.1 hs).1 e he

theorem worst_eq_top {k : ℕ} {c : Cand} (h : c.length < k) : worst k c = ⊤ := by
  simp [worst, h]

theorem le_worst_of_mem {k : ℕ} {c : Cand} (hs : c.Pairwise fun x y => y.1 ≤ x.1)
    {e : ℚ × ℕ} (he : e ∈ c) : (e.1 : WithTop ℚ) ≤ worst k c := by
  unfold worst
  split
  · exact le_top
  · cases c with
    | nil => simp at he
    | cons w rest =>
      exact WithTop.coe_le_coe.2 (le_head_of_sorted hs (by simp) he)

theorem mem_insertEntry {k : ℕ} {c : Cand} {dst : ℚ} {i : ℕ} {x : ℚ × ℕ}
    (hx : x ∈ insertEntry k c dst i) : x = (dst, i) ∨ x ∈ c := by
  by_cases hfull : c.length < k
  · simp only [insertEntry, if_pos hfull] at hx
    exact mem_insDesc.1 hx
  · cases c with
    | nil =>
      have hk0 : k = 0 := by simp only [List.length_nil] at hfull; omega
      subst hk0
      simp [insertEntry] at hx
    | cons w rest =>
      simp only [insertEntry, if_neg hfull] at hx
      by_cases hlt : dst < w.1
      · rw [if_pos hlt] at hx
        rcases mem_insDesc.1 hx with rfl | h
        · exact Or.inl rfl
        · exact Or.inr (List.mem_cons_of_mem w h)
      · rw [if_neg hlt] at hx
        exact Or.inr hx

theorem insertEntry_length {k : ℕ} {c : Cand} (hl : c.length ≤ k) (dst : ℚ) (i : ℕ) :
    (insertEntry k c dst i).length = min k (c.length + 1) := by
  by_cases hfull : c.length < k
  · simp only [insertEntry, if_pos hfull]
    rw [insDesc_length, Nat.min_eq_right (Nat.succ_le_of_lt hfull)]
  · have hck : c.length = k := le_antisymm hl (le_of_not_lt hfull)
    cases c with
    | nil => simp [insertEntry, if_neg hfull, ← hck]
    | cons w rest =>
      simp only [insertEntry, if_neg hfull]
      by_cases hlt : dst < w.1
      · rw [if_pos hlt, insDesc_length]
        simp only [List.length_cons] at hck
        omega
      · rw [if_neg hlt]
        simp only [List.length_cons] at hck ⊢
        omega

theorem insertEntry_sorted {k : ℕ} {c : Cand} (hs : c.Pairwise fun x y => y.1 ≤ x.1)
    (dst : ℚ) (i : ℕ) :
    (insertEntry k c dst i).Pairwise fun x y => y.1 ≤ x.1 := by
  by_cases hfull : c.length < k
  · simp only [insertEntry, if_pos hfull]
    exact insDesc_sorted hs _
  · cases c with
    | nil =>
      have hk0 : k = 0 := by simp only [List.length_nil] at hfull; omega
      subst hk0
      simp [insertEntry]
    | cons w rest =>
      simp only [insertEntry, if_neg hfull]
      by_cases hlt : dst < w.1
      · rw [if_pos hlt]
        exact insDesc_sorted (List.pairwise_cons.1 hs).2 _
      · rw [if_neg hlt]
        exact hs

theorem worst_insertEntry_le {k : ℕ} {c : Cand} (hs : c.Pairwise fun x y => y.1 ≤ x.1)
    (hl : c.length ≤ k) (dst : ℚ) (i : ℕ) :
    worst k (insertEntry k c dst i) ≤ worst k c := by
  by_cases hfull : c.length < k
  · rw [worst_eq_top hfull]; exact le_top
  · cases c with
    | nil =>
      simp only [insertEntry, if_neg hfull]
      exact le_rfl
    | cons w rest =>
      have hck : rest.length + 1 = k := by
        have := le_antisymm hl (le_of_not_lt hfull)
        simpa using this
      have hworstc : worst k (w :: rest) = (w.1 : WithTop ℚ) := by
        unfold worst
        rw [if_neg hfull]
      simp only [insertEntry, if_neg hfull]
      by_cases hlt : dst < w.1
      · rw [if_pos hlt, hworstc]
        have hlen : (insDesc rest (dst, i)).length = k := by rw [insDesc_length]; omega
        unfold worst
        rw [if_neg (by omega)]
        rcases hins : insDesc rest (dst, i) with _ | ⟨a, as⟩
        · exfalso
          rw [hins] at hlen
          simp only [List.length_nil] at hlen
          omega
        · rcases insDesc_head (c := rest) (e := (dst, i)) with hh | ⟨y, ys, hrest, hylt, hh⟩
          · rw [hins] at hh
            simp only [List.head?_cons, Option.some.injEq] at hh
            subst hh
            exact WithTop.coe_le_coe.2 (le_of_lt hlt)
          · rw [hins] at hh
            simp only [List.head?_cons, Option.some.injEq] at hh
            subst hh
            refine WithTop.coe_le_coe.2 ((List.pairwise_cons.1 hs).1 a ?_)
            rw [hrest]
            exact List.mem_cons_self _ _
      · rw [if_neg hlt]

theorem covered_insertEntry_self {d k : ℕ} (hk : 1 ≤ k) {q : Point} {c : Cand}
    (rip : IPoint) :
    covered d k q (insertEntry k c (sqDist d q rip.2) rip.1) rip := by
  unfold covered
  by_cases hfull : c.length < k
  · left
    simp only [insertEntry, if_pos hfull]
    exact mem_insDesc.2 (Or.inl rfl)
  · cases c with
    | nil => exact absurd hk (by simpa using hfull)
    | cons w rest =>
      simp only [insertEntry, if_neg hfull]
      by_cases hlt : sqDist d q rip.2 < w.1
      · left
        rw [if_pos hlt]
        exact mem_insDesc.2 (Or.inl rfl)
      · right
        rw [if_neg hlt]
        have hworstc : worst k (w :: rest) = (w.1 : WithTop ℚ) := by
          unfold worst
          rw [if_neg hfull]
        rw [hworstc]
        exact WithTop.coe_le_coe.2 (le_of_not_lt hlt)

theorem covered_insertEntry {d k : ℕ} {q : Point} {c : Cand}
    (hs : c.Pairwise fun x y => y.1 ≤ x.1) (hl : c.length ≤ k) (dst : ℚ) (i : ℕ)
    {x : IPoint} (hc : covered d k q c x) :
    covered d k q (insertEntry k c dst i) x := by
  rcases hc with hmem | hw
  · by_cases hfull : c.length < k
    · left
      simp only [insertEntry, if_pos hfull]
      exact mem_insDesc.2 (Or.inr hmem)
    · cases c with
      | nil => simp at hmem
      | cons w rest =>
        by_cases hlt : dst < w.1
        · rcases List.mem_cons.1 hmem with heq | hmem'
          · right
            have hwle := worst_insertEntry_le (k := k) (c := w :: rest) hs hl dst i
            simp only [insertEntry, if_neg hfull, if_pos hlt] at hwle ⊢
            have hworstc : worst k (w :: rest) = (w.1 : WithTop ℚ) := by
              unfold worst
              rw [if_neg hfull]
            calc worst k (insDesc rest (dst, i)) ≤ worst k (w :: rest) := hwle
              _ = (w.1 : WithTop ℚ) := hworstc
              _ = ((sqDist d q x.2 : ℚ) : WithTop ℚ) := by rw [← heq]
          · left
            simp only [insertEntry, if_neg hfull, if_pos hlt]
            exact mem_insDesc.2 (Or.inr hmem')
        · left
          simp only [insertEntry, if_neg hfull, if_neg hlt]
          exact hmem
  · exact Or.inr (le_trans (worst_insertEntry_le hs hl dst i) hw)

theorem insertEntry_map_snd_subset {k : ℕ} {c : Cand} {dst : ℚ} {i : ℕ} :
    (insertEntry k c dst i).map Prod.snd ⊆ i :: c.map Prod.snd := by
  intro j hj
  rcases List.mem_map.1 hj with ⟨e, he, rfl⟩
  rcases mem_insertEntry he with rfl | he'
  · exact List.mem_cons_self _ _
  · exact List.mem_cons_of_mem _ (List.mem_map_of_mem Prod.snd he')

theorem insertEntry_nodup {k : ℕ} {c : Cand} (hnd : (c.map Prod.snd).Nodup)
    {dst : ℚ} {i : ℕ} (hfresh : i ∉ c.map Prod.snd) :
    ((insertEntry k c dst i).map Prod.snd).Nodup := by
  by_cases hfull : c.length < k
  · simp only [insertEntry, if_pos hfull]
    rw [((insDesc_perm c (dst, i)).map Prod.snd).nodup_iff]
    simp only [List.map_cons]
    exact List.nodup_cons.2 ⟨hfresh, hnd⟩
  · cases c with
    | nil =>
      have hk0 : k = 0 := by simp only [List.length_nil] at hfull; omega
      subst hk0
      simp [insertEntry]
    | cons w rest =>
      simp only [insertEntry, if_neg hfull]
      by_cases hlt : dst < w.1
      · rw [if_pos hlt]
        rw [((insDesc_perm rest (dst, i)).map Prod.snd).nodup_iff]
        simp only [List.map_cons, List.mem_cons, not_or] at hfresh
        simp only [List.map_cons, List.nodup_cons] at hnd
        simp only [List.map_cons, List.nodup_cons]
        exact ⟨hfresh.2, hnd.2⟩
      · rw [if_neg hlt]
        exact hnd

/-- `insertEntry` preserves the candidate-list invariant when the inserted reference point
is drawn from the pool and its index is fresh. -/
theorem candBase_insertEntry {d k : ℕ} {q : Point} {R : List IPoint} {c : Cand}
    (hb : CandBase d k q R c) {rip : IPoint} (hR : rip ∈ R)
    (hfresh : rip.1 ∉ c.map Prod.snd) :
    CandBase d k q R (insertEntry k c (sqDist d q rip.2) rip.1) := by
  refine ⟨insertEntry_sorted hb.sorted _ _, ?_, insertEntry_nodup hb.nodup hfresh, ?_⟩
  · rw [insertEntry_length hb.len_le]
    exact min_le_left _ _
  · intro e he
    rcases mem_insertEntry he with rfl | he'
    · exact ⟨rip.2, hR, rfl⟩
    · exact hb.genuine e he'

/-! ## BoundingVolume

Modelled from the spec: the `BoundingVolume` component (spec §3, §4.1,
`bound::HRectBound` in the source's tree type), which is not under `src/`: an
axis-aligned hyper-rectangle with min/max coordinate vectors and distance-bound
queries.  Distances are squared, matching `sqDist`. -/

/-- An axis-aligned hyper-rectangle: per-dimension minimum and maximum coordinates. -/
structure HRect where
  mins : ℕ → ℚ
  maxs : ℕ → ℚ

/-- The point lies inside the rectangle on every one of the first `d` axes. -/
def insideRect (d : ℕ) (p : Point) (b : HRect) : Prop :=
  ∀ i < d, b.mins i ≤ p i ∧ p i ≤ b.maxs i

/-- Per-axis gap between a coordinate and an interval (0 if the coordinate is inside). -/
def axisGap (lo hi x : ℚ) : ℚ := max 0 (max (lo - x) (x - hi))

/-- Modelled from the spec: `BoundingVolume.MinDistance(point)` — squared lower bound on
the distance from `q` to any point inside `b` (spec §4.1). -/
def minDistPoint (d : ℕ) (q : Point) (b : HRect) : ℚ :=
  ∑ i ∈ Finset.range d, axisGap (b.mins i) (b.maxs i) (q i) ^ 2

/-- Modelled from the spec: `BoundingVolume.MinDistance(otherVolume)` — squared lower
bound on the distance between any point of `b₁` and any point of `b₂` (spec §4.1). -/
def minDistRect (d : ℕ) (b₁ b₂ : HRect) : ℚ :=
  ∑ i ∈ Finset.range d, max 0 (max (b₁.mins i - b₂.maxs i) (b₂.mins i - b₁.maxs i)) ^ 2

theorem axisGap_sq_le {lo hi x y : ℚ} (h1 : lo ≤ x) (h2 : x ≤ hi) :
    axisGap lo hi y ^ 2 ≤ (y - x) ^ 2 := by
  have hg0 : 0 ≤ axisGap lo hi y := le_max_left _ _
  have hgle : axisGap lo hi y ≤ |y - x| := by
    refine max_le (abs_nonneg _) (max_le ?_ ?_)
    · calc lo - y ≤ x - y := by linarith
        _ ≤ |x - y| := le_abs_self _
        _ = |y - x| := abs_sub_comm _ _
    · calc y - hi ≤ y - x := by linarith
        _ ≤ |y - x| := le_abs_self _
  calc axisGap lo hi y ^ 2 ≤ |y - x| ^ 2 := pow_le_pow_left₀ hg0 hgle 2
    _ = (y - x) ^ 2 := sq_abs _

theorem axisGap2_sq_le {lo1 hi1 lo2 hi2 x y : ℚ} (hx1 : lo1 ≤ x) (hx2 : x ≤ hi1)
    (hy1 : lo2 ≤ y) (hy2 : y ≤ hi2) :
    max 0 (max (lo1 - hi2) (lo2 - hi1)) ^ 2 ≤ (x - y) ^ 2 := by
  have hg0 : (0 : ℚ) ≤ max 0 (max (lo1 - hi2) (lo2 - hi1)) := le_max_left _ _
  have hgle : max 0 (max (lo1 - hi2) (lo2 - hi1)) ≤ |x - y| := by
    refine max_le (abs_nonneg _) (max_le ?_ ?_)
    · calc lo1 - hi2 ≤ x - y := by linarith
        _ ≤ |x - y| := le_abs_self _
    · calc lo2 - hi1 ≤ y - x := by linarith
        _ ≤ |y - x| := le_abs_self _
        _ = |x - y| := abs_sub_comm _ _
  calc max 0 (max (lo1 - hi2) (lo2 - hi1)) ^ 2 ≤ |x - y| ^ 2 := pow_le_pow_left₀ hg0 hgle 2
    _ = (x - y) ^ 2 := sq_abs _

/-- Soundness of the point-to-volume lower bound: if `p` is inside `b`, the bound is at
most the true squared distance from `q` to `p`. -/
theorem minDistPoint_le {d : ℕ} {q p : Point} {b : HRect} (hp : insideRect d p b) :
    minDistPoint d q b ≤ sqDist d q p := by
  refine Finset.sum_le_sum fun i hi => ?_
  have hmem := hp i (Finset.mem_range.1 hi)
  exact axisGap_sq_le hmem.1 hmem.2

/-- Soundness of the volume-to-volume lower bound. -/
theorem minDistRect_le {d : ℕ} {p₁ p₂ : Point} {b₁ b₂ : HRect}
    (h1 : insideRect d p₁ b₁) (h2 : insideRect d p₂ b₂) :
    minDistRect d b₁ b₂ ≤ sqDist d p₁ p₂ := by
  refine Finset.sum_le_sum fun i hi => ?_
  have hm1 := h1 i (Finset.mem_range.1 hi)
  have hm2 := h2 i (Finset.mem_range.1 hi)
  exact axisGap2_sq_le hm1.1 hm1.2 hm2.1 hm2.2

/-! ## PartitionTree

Modelled from the spec: the `PartitionTree` component (spec §3, §4.2, `BinarySpaceTree`
in the source), which is not under `src/`.  A node stores its bounding volume; a leaf
stores its points (each tagged with the index the search reports for it); the
tree-internal point order is the left-to-right order of `PTree.pts`, and the recorded
permutation (`oldFromNew`) maps tree-internal position to original index. -/

inductive PTree where
  | leaf (bound : HRect) (pts : List IPoint)
  | node (bound : HRect) (l r : PTree)

/-- The bounding volume of the root node of `t`. -/
def PTree.bound : PTree → HRect
  | .leaf b _ => b
  | .node b _ _ => b

/-- All points of the tree in tree-internal (left-to-right) order. -/
def PTree.pts : PTree → List IPoint
  | .leaf _ ps => ps
  | .node _ l r => l.pts ++ r.pts

/-- Node count, used as a recursion measure. -/
def PTree.size : PTree → ℕ
  | .leaf _ _ => 1
  | .node _ l r => l.size + r.size + 1

/-- Well-formed tree: every node's bounding volume contains all points below it. -/
inductive WFT (d : ℕ) : PTree → Prop
  | leaf {b ps} : (∀ ip ∈ ps, insideRect d ip.2 b) → WFT d (.leaf b ps)
  | node {b l r} : (∀ ip ∈ (PTree.node b l r).pts, insideRect d ip.2 b) →
      WFT d l → WFT d r → WFT d (.node b l r)

/-- Every point of a well-formed tree lies inside the root bounding volume. -/
theorem WFT.inside_bound {d : ℕ} {t : PTree} (h : WFT d t) :
    ∀ ip ∈ t.pts, insideRect d ip.2 t.bound := by
  cases h with
  | leaf h => exact h
  | node h _ _ => exact h

/-- The bounding volume of a point list: per-axis minima and maxima (spec §4.1,
"computed as the per-axis min/max over a point range"). -/
def computeBound : List IPoint → HRect
  | [] => ⟨fun _ => 0, fun _ => 0⟩
  | ip :: rest =>
    ⟨fun i => (rest.map fun jp => jp.2 i).foldr min (ip.2 i),
     fun i => (rest.map fun jp => jp.2 i).foldr max (ip.2 i)⟩

theorem foldr_min_le_init (l : List ℚ) (a : ℚ) : l.foldr min a ≤ a := by
  induction l with
  | nil => exact le_rfl
  | cons x xs ih => exact le_trans (min_le_right _ _) ih

theorem foldr_min_le (l : List ℚ) (a : ℚ) {x : ℚ} (hx : x ∈ l) : l.foldr min a ≤ x := by
  induction l with
  | nil => simp at hx
  | cons y ys ih =>
    rcases List.mem_cons.1 hx with rfl | hx
    · exact min_le_left _ _
    · exact le_trans (min_le_right _ _) (ih hx)

theorem le_foldr_max_init (l : List ℚ) (a : ℚ) : a ≤ l.foldr max a := by
  induction l with
  | nil => exact le_rfl
  | cons x xs ih => exact le_trans ih (le_max_right _ _)

theorem le_foldr_max (l : List ℚ) (a : ℚ) {x : ℚ} (hx : x ∈ l) : x ≤ l.foldr max a := by
  induction l with
  | nil => simp at hx
  | cons y ys ih =>
    rcases List.mem_cons.1 hx with rfl | hx
    · exact le_max_left _ _
    · exact le_trans (ih hx) (le_max_right _ _)

/-- Every point of the list lies inside its computed bounding volume. -/
theorem insideRect_computeBound {d : ℕ} {pts : List IPoint} {ip : IPoint}
    (hip : ip ∈ pts) : insideRect d ip.2 (computeBound pts) := by
  cases pts with
  | nil => simp at hip
  | cons hd rest =>
    intro i _
    rcases List.mem_cons.1 hip with rfl | hmem
    · exact ⟨foldr_min_le_init _ _, le_foldr_max_init _ _⟩
    · constructor
      · exact foldr_min_le _ _ (List.mem_map_of_mem (fun jp => jp.2 i) hmem)
      · exact le_foldr_max _ _ (List.mem_map_of_mem (fun jp => jp.2 i) hmem)

/-- The dimension of greatest spread of a bounding volume (spec §4.2's split rule). -/
def widestDim (d : ℕ) (b : HRect) : ℕ :=
  (List.range d).foldl
    (fun best i => if b.maxs best - b.mins best < b.maxs i - b.mins i then i else best) 0

/-- Modelled from the spec: `PartitionTree.Build` (spec §4.2).  Recursively partitions
the point list: leaf once the range size is at most `leafSize`; otherwise split at the
midpoint of the dimension of greatest spread.  A split that would leave one side empty
(all points at the same coordinate) terminates in a leaf; the fuel argument (always
called with the list length) makes the recursion structural. -/
def buildTree (d leafSize : ℕ) : ℕ → List IPoint → PTree
  | 0, pts => .leaf (computeBound pts) pts
  | fuel + 1, pts =>
    let b := computeBound pts
    if pts.length ≤ leafSize then .leaf b pts
    else
      let dim := widestDim d b
      let mid := (b.mins dim + b.maxs dim) / 2
      let ls := pts.filter fun ip => ip.2 dim < mid
      let rs := pts.filter fun ip => ¬ ip.2 dim < mid
      if ls.length = 0 ∨ rs.length = 0 then .leaf b pts
      else .node b (buildTree d leafSize fuel ls) (buildTree d leafSize fuel rs)

/-- The points of a built tree are a permutation of the input list. -/
theorem buildTree_perm (d leafSize : ℕ) :
    ∀ (fuel : ℕ) (pts : List IPoint), List.Perm (buildTree d leafSize fuel pts).pts pts := by
  intro fuel
  induction fuel with
  | zero => intro pts; simp [buildTree, PTree.pts]
  | succ n ih =>
    intro pts
    by_cases hleaf : pts.length ≤ leafSize
    · simp [buildTree, if_pos hleaf, PTree.pts]
    · simp only [buildTree, if_neg hleaf]
      set dim := widestDim d (computeBound pts)
      set mid := (((computeBound pts).mins dim + (computeBound pts).maxs dim) / 2 : ℚ)
      by_cases hdeg : (pts.filter fun ip => ip.2 dim < mid).length = 0 ∨
          (pts.filter fun ip => ¬ ip.2 dim < mid).length = 0
      · rw [if_pos hdeg]
        exact List.Perm.refl _
      · rw [if_neg hdeg]
        show List.Perm ((buildTree d leafSize n _).pts ++ (buildTree d leafSize n _).pts) pts
        refine ((ih _).append (ih _)).trans ?_
        simp only [decide_not]
        exact List.filter_append_perm _ pts

/-- A built tree is well-formed: every node's volume contains its points. -/
theorem buildTree_wft (d leafSize : ℕ) :
    ∀ (fuel : ℕ) (pts : List IPoint), WFT d (buildTree d leafSize fuel pts) := by
  intro fuel
  induction fuel with
  | zero => intro pts; exact WFT.leaf fun ip hip => insideRect_computeBound hip
  | succ n ih =>
    intro pts
    by_cases hleaf : pts.length ≤ leafSize
    · simp only [buildTree, if_pos hleaf]
      exact WFT.leaf fun ip hip => insideRect_computeBound hip
    · simp only [buildTree, if_neg hleaf]
      set dim := widestDim d (computeBound pts)
      set mid := (((computeBound pts).mins dim + (computeBound pts).maxs dim) / 2 : ℚ)
      by_cases hdeg : (pts.filter fun ip => ip.2 dim < mid).length = 0 ∨
          (pts.filter fun ip => ¬ ip.2 dim < mid).length = 0
      · rw [if_pos hdeg]
        exact WFT.leaf fun ip hip => insideRect_computeBound hip
      · rw [if_neg hdeg]
        refine WFT.node ?_ (ih _) (ih _)
        intro ip hip
        have hmem : ip ∈ pts := by
          rcases List.mem_append.1 hip with h | h
          · exact List.mem_of_mem_filter ((buildTree_perm d leafSize n _).subset h)
          · exact List.mem_of_mem_filter ((buildTree_perm d leafSize n _).subset h)
        exact insideRect_computeBound hmem

/-- Top-level build: tag the points with their original column indices, as the tree
constructor's `oldFromNew` recording does. -/
def buildTreeTop (d leafSize : ℕ) (pts : List Point) : PTree :=
  buildTree d leafSize pts.length pts.enum

/-- The permutation recorded by tree construction: tree-internal position `i` holds the
point of original index `oldFromNew i` (the source's `oldFromNew` vectors,
`allknn_main.cpp` lines 108/120). -/
def oldFromNew (t : PTree) : List ℕ := t.pts.map Prod.fst

theorem oldFromNew_perm_range (d leafSize : ℕ) (pts : List Point) :
    List.Perm (oldFromNew (buildTreeTop d leafSize pts)) (List.range pts.length) := by
  have h := (buildTree_perm d leafSize pts.length pts.enum).map Prod.fst
  rw [oldFromNew, buildTreeTop]
  exact h.trans (by rw [List.enum_map_fst])

theorem oldFromNew_nodup (d leafSize : ℕ) (pts : List Point) :
    (oldFromNew (buildTreeTop d leafSize pts)).Nodup :=
  ((oldFromNew_perm_range d leafSize pts).nodup_iff).2 (List.nodup_range _)

/-! ## Brute-force point processing

Modelled from the spec: the base case shared by all three search modes (spec §4.3):
compare the query point against a list of reference points, maintaining its candidate
set via insert. -/

/-- Insert every reference point of `rps` into the candidate list of query `q`. -/
def processLeaf (d k : ℕ) (q : Point) (rps : List IPoint) (c : Cand) : Cand :=
  rps.foldl (fun c rip => insertEntry k c (sqDist d q rip.2) rip.1) c

/-- Workhorse lemma: processing a list of distinct fresh reference points preserves the
candidate invariant, only adds indices from the list, never worsens the current worst,
preserves coverage, and covers every processed point. -/
theorem processLeaf_spec (d k : ℕ) (hk : 1 ≤ k) (q : Point) (R : List IPoint) :
    ∀ (rps : List IPoint) (c : Cand),
      CandBase d k q R c →
      (∀ rip ∈ rps, rip ∈ R) →
      (rps.map Prod.fst).Nodup →
      (∀ rip ∈ rps, rip.1 ∉ c.map Prod.snd) →
      CandBase d k q R (processLeaf d k q rps c) ∧
      (∀ j ∈ (processLeaf d k q rps c).map Prod.snd,
          j ∈ c.map Prod.snd ∨ j ∈ rps.map Prod.fst) ∧
      worst k (processLeaf d k q rps c) ≤ worst k c ∧
      (∀ x : IPoint, covered d k q c x → covered d k q (processLeaf d k q rps c) x) ∧
      (∀ rip ∈ rps, covered d k q (processLeaf d k q rps c) rip) := by
  intro rps
  induction rps with
  | nil =>
    intro c hb _ _ _
    exact ⟨hb, fun j hj => Or.inl hj, le_rfl, fun x hx => hx, by simp⟩
  | cons rip0 rest ih =>
    intro c hb hsub hnd hdisj
    have hrip0R : rip0 ∈ R := hsub rip0 (List.mem_cons_self _ _)
    have hfresh0 : rip0.1 ∉ c.map Prod.snd := hdisj rip0 (List.mem_cons_self _ _)
    have hnd2 : (rip0.1 :: rest.map Prod.fst).Nodup := by
      simpa only [List.map_cons] using hnd
    rcases List.nodup_cons.1 hnd2 with ⟨hhd, hndrest⟩
    set c' := insertEntry k c (sqDist d q rip0.2) rip0.1 with hc'
    have hb' : CandBase d k q R c' := candBase_insertEntry hb hrip0R hfresh0
    have hdisj' : ∀ rip ∈ rest, rip.1 ∉ c'.map Prod.snd := by
      intro rip hrip hmem
      rcases List.mem_cons.1 (insertEntry_map_snd_subset hmem) with heq | hmem'
      · exact hhd (heq ▸ List.mem_map_of_mem Prod.fst hrip)
      · exact hdisj rip (List.mem_cons_of_mem _ hrip) hmem'
    have hstep : processLeaf d k q (rip0 :: rest) c = processLeaf d k q rest c' := rfl
    obtain ⟨ihb, ihsub, ihw, ihpres, ihcov⟩ :=
      ih c' hb' (fun rip h => hsub rip (List.mem_cons_of_mem _ h)) hndrest hdisj'
    rw [hstep]
    refine ⟨ihb, ?_, ?_, ?_, ?_⟩
    · intro j hj
      rcases ihsub j hj with hj' | hj'
      · rcases List.mem_cons.1 (insertEntry_map_snd_subset hj') with heq | hmem'
        · exact Or.inr (by simp [heq])
        · exact Or.inl hmem'
      · exact Or.inr (by simp [hj'])
    · exact le_trans ihw (worst_insertEntry_le hb.sorted hb.len_le _ _)
    · exact fun x hx => ihpres x (covered_insertEntry hb.sorted hb.len_le _ _ hx)
    · intro rip hrip
      rcases List.mem_cons.1 hrip with rfl | hrip'
      · exact ihpres rip (covered_insertEntry_self hk rip)
      · exact ihcov rip hrip'

/-! ## Exactness -/

/-- `res` is an exact `k`-nearest-neighbor answer for query `q` over `refs`: it holds
`min k n` entries, with distinct valid reference indices, each carrying the exact
(squared) distance, and no reference point outside the answer is closer than any
entry of the answer. -/
def exactKNN (d k : ℕ) (refs : List Point) (q : Point) (res : Cand) : Prop :=
  res.length = min k refs.length ∧
  (res.map Prod.snd).Nodup ∧
  (∀ e ∈ res, ∃ p, (e.2, p) ∈ refs.enum ∧ e.1 = sqDist d q p) ∧
  (∀ jp ∈ refs.enum, jp.1 ∉ res.map Prod.snd → ∀ e ∈ res, e.1 ≤ sqDist d q jp.2)

theorem fst_lt_of_mem_enum {α : Type} {l : List α} {x : ℕ × α} (hx : x ∈ l.enum) :
    x.1 < l.length := by
  rw [List.enum_eq_zip_range] at hx
  have := List.of_mem_zip hx
  exact List.mem_range.1 this.1

theorem mem_enum_of_lt {α : Type} {l : List α} {j : ℕ} (hj : j < l.length) :
    (j, l.get ⟨j, hj⟩) ∈ l.enum := by
  rw [List.mem_enum_iff_getElem?]
  simp [List.getElem?_eq_getElem hj]

/-- A candidate list that satisfies the invariant and covers every reference point is an
exact `k`-nearest-neighbor answer. -/
theorem exact_of_covered {d k : ℕ} (hk : 1 ≤ k) {refs : List Point} {q : Point} {c : Cand}
    (hb : CandBase d k q refs.enum c)
    (hcov : ∀ rip ∈ refs.enum, covered d k q c rip) :
    exactKNN d k refs q c := by
  have hidx : ∀ j ∈ c.map Prod.snd, j < refs.length := by
    intro j hj
    rcases List.mem_map.1 hj with ⟨e, he, rfl⟩
    rcases hb.genuine e he with ⟨p, hp, _⟩
    exact fst_lt_of_mem_enum hp
  have hsub : c.map Prod.snd ⊆ List.range refs.length := fun j hj =>
    List.mem_range.2 (hidx j hj)
  have hlen_le : c.length ≤ refs.length := by
    have := (hb.nodup.subperm hsub).length_le
    simpa using this
  refine ⟨?_, hb.nodup, hb.genuine, ?_⟩
  · by_cases hfull : c.length < k
    · have hall : ∀ j (hj : j < refs.length), j ∈ c.map Prod.snd := by
        intro j hj
        rcases hcov _ (mem_enum_of_lt hj) with hmem | hw
        · exact List.mem_map.2 ⟨_, hmem, rfl⟩
        · rw [worst_eq_top hfull] at hw
          exact absurd hw (by simp)
      have hsup : List.range refs.length ⊆ c.map Prod.snd := by
        intro j hj
        exact hall j (List.mem_range.1 hj)
      have hge : refs.length ≤ c.length := by
        have := ((List.nodup_range refs.length).subperm hsup).length_le
        simpa using this
      have heq : c.length = refs.length := le_antisymm hlen_le hge
      rw [heq, Nat.min_eq_right]
      omega
    · have heq : c.length = k := le_antisymm hb.len_le (le_of_not_lt hfull)
      rw [heq, Nat.min_eq_left]
      omega
  · intro jp hjp hnot e he
    rcases hcov jp hjp with hmem | hw
    · exact absurd (List.mem_map.2 ⟨_, hmem, rfl⟩) hnot
    · exact WithTop.coe_le_coe.1 (le_trans (le_worst_of_mem hb.sorted he) hw)

/-- CandBase holds for the empty candidate list. -/
theorem candBase_nil (d k : ℕ) (q : Point) (R : List IPoint) : CandBase d k q R [] :=
  ⟨List.Pairwise.nil, Nat.zero_le _, List.nodup_nil, by simp⟩

/-! ## SearchEngine, naive mode

Modelled from the spec (§4.3): for every query point, compute the distance to every
reference point, maintaining the query's candidate set via insert. -/

/-- Naive-mode search for a single query point. -/
def naiveSearch (d k : ℕ) (refs : List Point) (q : Point) : Cand :=
  processLeaf d k q refs.enum []

/-- Naive mode returns an exact `k`-nearest-neighbor answer. -/
theorem naiveSearch_exact (d k : ℕ) (hk : 1 ≤ k) (refs : List Point) (q : Point) :
    exactKNN d k refs q (naiveSearch d k refs q) := by
  obtain ⟨hb, _, _, _, hcov⟩ :=
    processLeaf_spec d k hk q refs.enum refs.enum [] (candBase_nil d k q _)
      (fun rip h => h) (List.nodup_enum_map_fst _) (by simp)
  exact exact_of_covered hk hb hcov

/-! ## SearchEngine, single-tree mode

Modelled from the spec (§4.3): depth-first traversal of the reference tree per query
point; an internal node is pruned when its volume's minimum distance is no better than
the query's current worst (the candidate set being full is implied, since the worst is
`⊤` otherwise); children are visited closer-first; leaves are brute-forced. -/

def singleSearch (d k : ℕ) (q : Point) : PTree → Cand → Cand
  | .leaf _ rps, c => processLeaf d k q rps c
  | .node b l r, c =>
    if worst k c ≤ (minDistPoint d q b : WithTop ℚ) then c
    else if minDistPoint d q l.bound ≤ minDistPoint d q r.bound then
      singleSearch d k q r (singleSearch d k q l c)
    else
      singleSearch d k q l (singleSearch d k q r c)

/-- Postcondition of processing reference points `pts` starting from candidates `c` and
ending in `res`: invariant kept, only indices of `pts` added, worst never worsened,
coverage preserved, all of `pts` covered. -/
def SSpec (d k : ℕ) (q : Point) (R : List IPoint) (pts : List IPoint)
    (c res : Cand) : Prop :=
  CandBase d k q R res ∧
  (∀ j ∈ res.map Prod.snd, j ∈ c.map Prod.snd ∨ j ∈ pts.map Prod.fst) ∧
  worst k res ≤ worst k c ∧
  (∀ x : IPoint, covered d k q c x → covered d k q res x) ∧
  (∀ rip ∈ pts, covered d k q res rip)

theorem SSpec.seq {d k : ℕ} {q : Point} {R : List IPoint} {pts1 pts2 : List IPoint}
    {c c1 c2 : Cand} (h1 : SSpec d k q R pts1 c c1) (h2 : SSpec d k q R pts2 c1 c2) :
    SSpec d k q R (pts1 ++ pts2) c c2 := by
  obtain ⟨hb1, hsub1, hw1, hp1, hc1⟩ := h1
  obtain ⟨hb2, hsub2, hw2, hp2, hc2⟩ := h2
  refine ⟨hb2, ?_, le_trans hw2 hw1, fun x hx => hp2 x (hp1 x hx), ?_⟩
  · intro j hj
    rcases hsub2 j hj with hj' | hj'
    · rcases hsub1 j hj' with h | h
      · exact Or.inl h
      · right
        rw [List.map_append]
        exact List.mem_append.2 (Or.inl h)
    · right
      rw [List.map_append]
      exact List.mem_append.2 (Or.inr hj')
  · intro rip hrip
    rcases List.mem_append.1 hrip with h | h
    · exact hp2 rip (hc1 rip h)
    · exact hc2 rip h

theorem SSpec.perm_pts {d k : ℕ} {q : Point} {R : List IPoint} {pts pts' : List IPoint}
    (hp : List.Perm pts pts') {c res : Cand} (h : SSpec d k q R pts c res) :
    SSpec d k q R pts' c res := by
  obtain ⟨hb, hsub, hw, hpres, hcov⟩ := h
  refine ⟨hb, ?_, hw, hpres, fun rip hrip => hcov rip (hp.mem_iff.2 hrip)⟩
  intro j hj
  rcases hsub j hj with h | h
  · exact Or.inl h
  · exact Or.inr ((hp.map Prod.fst).mem_iff.1 h)

theorem processLeaf_sspec {d k : ℕ} (hk : 1 ≤ k) {q : Point} {R : List IPoint}
    {rps : List IPoint} {c : Cand} (hb : CandBase d k q R c)
    (hsub : ∀ rip ∈ rps, rip ∈ R) (hnd : (rps.map Prod.fst).Nodup)
    (hdisj : ∀ rip ∈ rps, rip.1 ∉ c.map Prod.snd) :
    SSpec d k q R rps c (processLeaf d k q rps c) := by
  obtain ⟨h1, h2, h3, h4, h5⟩ := processLeaf_spec d k hk q R rps c hb hsub hnd hdisj
  exact ⟨h1, h2, h3, h4, h5⟩

/-- Single-tree search satisfies the search postcondition over the tree's points. -/
theorem singleSearch_spec (d k : ℕ) (hk : 1 ≤ k) (q : Point) (R : List IPoint) :
    ∀ (t : PTree) (c : Cand),
      WFT d t →
      CandBase d k q R c →
      (∀ rip ∈ t.pts, rip ∈ R) →
      (t.pts.map Prod.fst).Nodup →
      (∀ rip ∈ t.pts, rip.1 ∉ c.map Prod.snd) →
      SSpec d k q R t.pts c (singleSearch d k q t c) := by
  intro t
  induction t with
  | leaf b rps =>
    intro c hw hb hsub hnd hdisj
    exact processLeaf_sspec hk hb hsub hnd hdisj
  | node b l r ihl ihr =>
    intro c hwt hb hsub hnd hdisj
    cases hwt with
    | node hin hwl hwr =>
    simp only [PTree.pts] at hsub hnd hdisj ⊢
    rw [List.map_append] at hnd
    rcases List.nodup_append.1 hnd with ⟨hndl, hndr, hdisjlr⟩
    have hsubl : ∀ rip ∈ l.pts, rip ∈ R := fun rip h =>
      hsub rip (List.mem_append.2 (Or.inl h))
    have hsubr : ∀ rip ∈ r.pts, rip ∈ R := fun rip h =>
      hsub rip (List.mem_append.2 (Or.inr h))
    have hdisjl : ∀ rip ∈ l.pts, rip.1 ∉ c.map Prod.snd := fun rip h =>
      hdisj rip (List.mem_append.2 (Or.inl h))
    have hdisjr : ∀ rip ∈ r.pts, rip.1 ∉ c.map Prod.snd := fun rip h =>
      hdisj rip (List.mem_append.2 (Or.inr h))
    by_cases hprune : worst k c ≤ (minDistPoint d q b : WithTop ℚ)
    · simp only [singleSearch, if_pos hprune]
      refine ⟨hb, fun j hj => Or.inl hj, le_rfl, fun x hx => hx, ?_⟩
      intro rip hrip
      right
      have hinside := hin rip hrip
      calc worst k c ≤ ((minDistPoint d q b : ℚ) : WithTop ℚ) := hprune
        _ ≤ ((sqDist d q rip.2 : ℚ) : WithTop ℚ) :=
          WithTop.coe_le_coe.2 (minDistPoint_le hinside)
    · simp only [singleSearch, if_neg hprune]
      by_cases hord : minDistPoint d q l.bound ≤ minDistPoint d q r.bound
      · rw [if_pos hord]
        have h1 := ihl c hwl hb hsubl hndl hdisjl
        have hdisjr1 : ∀ rip ∈ r.pts, rip.1 ∉ (singleSearch d k q l c).map Prod.snd := by
          intro rip hrip hmem
          rcases h1.2.1 rip.1 hmem with h | h
          · exact hdisjr rip hrip h
          · exact hdisjlr h (List.mem_map_of_mem Prod.fst hrip)
        have h2 := ihr (singleSearch d k q l c) hwr h1.1 hsubr hndr hdisjr1
        exact h1.seq h2
      · rw [if_neg hord]
        have h1 := ihr c hwr hb hsubr hndr hdisjr
        have hdisjl1 : ∀ rip ∈ l.pts, rip.1 ∉ (singleSearch d k q r c).map Prod.snd := by
          intro rip hrip hmem
          rcases h1.2.1 rip.1 hmem with h | h
          · exact hdisjl rip hrip h
          · exact hdisjlr (List.mem_map_of_mem Prod.fst hrip) h
        have h2 := ihl (singleSearch d k q r c) hwl h1.1 hsubl hndl hdisjl1
        exact (h1.seq h2).perm_pts List.perm_append_comm

/-! ## SearchEngine, dual-tree mode

Modelled from the spec (§4.3): joint recursion on (query node, reference node) pairs.
A pair is pruned when the inter-volume minimum distance is at least the query node's
`NodeStatistic` — the maximum over the node's query points of their current worst
candidate distance (spec §3); the check is expressed pointwise, `worst ≤ minDist` for
every query point of the node, which is equivalent to comparing against the maximum and
recomputes the statistic from the current state as the spec's lazy variant allows
(spec §9).  Visit order of child pairs is closer-first per query child; the spec's
global increasing-distance order over the four child pairs differs only in traversal
sequence, which affects no pruning-soundness or exactness property.  The search state
holds one candidate list per query point. -/

abbrev DState : Type := List (IPoint × Cand)

/-- Both nodes are leaves: brute-force all point pairs (spec §4.3). -/
def dualLeafLeaf (d k : ℕ) (qps rps : List IPoint) (s : DState) : DState :=
  s.map fun e =>
    if e.1.1 ∈ qps.map Prod.fst then (e.1, processLeaf d k e.1.2 rps e.2) else e

/-- Dual-tree recursion with the query side fixed at a leaf `(qb, qps)`, descending the
reference tree. -/
def dualLeafSearch (d k : ℕ) (qb : HRect) (qps : List IPoint) :
    PTree → DState → DState
  | .leaf rb rps, s =>
    if ∀ e ∈ s, e.1.1 ∈ qps.map Prod.fst →
        worst k e.2 ≤ (minDistRect d qb rb : WithTop ℚ) then s
    else dualLeafLeaf d k qps rps s
  | .node rb rl rr, s =>
    if ∀ e ∈ s, e.1.1 ∈ qps.map Prod.fst →
        worst k e.2 ≤ (minDistRect d qb rb : WithTop ℚ) then s
    else if minDistRect d qb rl.bound ≤ minDistRect d qb rr.bound then
      dualLeafSearch d k qb qps rr (dualLeafSearch d k qb qps rl s)
    else
      dualLeafSearch d k qb qps rl (dualLeafSearch d k qb qps rr s)

/-- Dual-tree search on a (query node, reference node) pair. -/
def dualSearch (d k : ℕ) : PTree → PTree → DState → DState
  | .leaf qb qps, rt, s => dualLeafSearch d k qb qps rt s
  | .node qb ql qr, rt, s =>
    if ∀ e ∈ s, e.1.1 ∈ (ql.pts ++ qr.pts).map Prod.fst →
        worst k e.2 ≤ (minDistRect d qb rt.bound : WithTop ℚ) then s
    else
      match rt with
      | .leaf rb rps =>
        dualSearch d k qr (.leaf rb rps) (dualSearch d k ql (.leaf rb rps) s)
      | .node rb rl rr =>
        if minDistRect d qr.bound rl.bound ≤ minDistRect d qr.bound rr.bound then
          dualSearch d k qr rr (dualSearch d k qr rl
            (if minDistRect d ql.bound rl.bound ≤ minDistRect d ql.bound rr.bound then
              dualSearch d k ql rr (dualSearch d k ql rl s)
            else dualSearch d k ql rl (dualSearch d k ql rr s)))
        else
          dualSearch d k qr rl (dualSearch d k qr rr
            (if minDistRect d ql.bound rl.bound ≤ minDistRect d ql.bound rr.bound then
              dualSearch d k ql rr (dualSearch d k ql rl s)
            else dualSearch d k ql rl (dualSearch d k ql rr s)))

/-- Per-entry evolution of the dual-tree state while a reference point set `rpts` is
processed against the query points whose indices lie in `qI`. -/
def EStep (d k : ℕ) (R : List IPoint) (qI : List ℕ) (rpts : List IPoint)
    (e e' : IPoint × Cand) : Prop :=
  e'.1 = e.1 ∧
  CandBase d k e.1.2 R e'.2 ∧
  (∀ j ∈ e'.2.map Prod.snd, j ∈ e.2.map Prod.snd ∨ j ∈ rpts.map Prod.fst) ∧
  worst k e'.2 ≤ worst k e.2 ∧
  (∀ x : IPoint, covered d k e.1.2 e.2 x → covered d k e.1.2 e'.2 x) ∧
  (e.1.1 ∉ qI → e'.2 = e.2) ∧
  (e.1.1 ∈ qI → ∀ rip ∈ rpts, covered d k e.1.2 e'.2 rip)

/-- State-wide evolution relation for one dual-tree recursion step. -/
def DSpec (d k : ℕ) (R : List IPoint) (qI : List ℕ) (rpts : List IPoint)
    (s s' : DState) : Prop :=
  List.Forall₂ (EStep d k R qI rpts) s s'

theorem forall2_map_self {α β : Type} {Rel : α → β → Prop} {l : List α} {f : α → β}
    (h : ∀ a ∈ l, Rel a (f a)) : List.Forall₂ Rel l (l.map f) := by
  induction l with
  | nil => simp
  | cons x xs ih =>
    simp only [List.map_cons]
    exact List.Forall₂.cons (h x (List.mem_cons_self _ _))
      (ih fun a ha => h a (List.mem_cons_of_mem _ ha))

theorem forall2_mem_right {α β : Type} {Rel : α → β → Prop} {l : List α} {l' : List β}
    (h : List.Forall₂ Rel l l') {b : β} (hb : b ∈ l') : ∃ a ∈ l, Rel a b := by
  induction h with
  | nil => simp at hb
  | cons hr hrest ih =>
    rcases List.mem_cons.1 hb with rfl | hb'
    · exact ⟨_, List.mem_cons_self _ _, hr⟩
    · rcases ih hb' with ⟨a, ha, hab⟩
      exact ⟨a, List.mem_cons_of_mem _ ha, hab⟩

theorem forall2_trans {α β γ : Type} {R1 : α → β → Prop} {R2 : β → γ → Prop}
    {R3 : α → γ → Prop} {l1 : List α} {l2 : List β} {l3 : List γ}
    (h12 : List.Forall₂ R1 l1 l2) (h23 : List.Forall₂ R2 l2 l3)
    (h : ∀ a b c, R1 a b → R2 b c → R3 a c) : List.Forall₂ R3 l1 l3 := by
  induction h12 generalizing l3 with
  | nil =>
    cases h23
    exact List.Forall₂.nil
  | cons hr hrest ih =>
    cases h23 with
    | cons hr2 hrest2 =>
      exact List.Forall₂.cons (h _ _ _ hr hr2) (ih hrest2)

/-- Sequencing two reference-side steps over the same query set. -/
theorem DSpec.seq_ref {d k : ℕ} {R : List IPoint} {qI : List ℕ}
    {rpts1 rpts2 : List IPoint} {s s1 s2 : DState}
    (h1 : DSpec d k R qI rpts1 s s1) (h2 : DSpec d k R qI rpts2 s1 s2) :
    DSpec d k R qI (rpts1 ++ rpts2) s s2 := by
  refine forall2_trans h1 h2 ?_
  rintro e e1 e2 ⟨hk1, hb1, hs1, hw1, hp1, hu1, hc1⟩ ⟨hk2, hb2, hs2, hw2, hp2, hu2, hc2⟩
  rw [hk1] at hk2 hb2 hp2 hu2 hc2
  refine ⟨hk2, hb2, ?_, le_trans hw2 hw1, fun x hx => hp2 x (hp1 x hx), ?_, ?_⟩
  · intro j hj
    rcases hs2 j hj with hj' | hj'
    · rcases hs1 j hj' with h | h
      · exact Or.inl h
      · right
        rw [List.map_append]
        exact List.mem_append.2 (Or.inl h)
    · right
      rw [List.map_append]
      exact List.mem_append.2 (Or.inr hj')
  · intro hnot
    rw [hu2 hnot, hu1 hnot]
  · intro hmem rip hrip
    rcases List.mem_append.1 hrip with h | h
    · exact hp2 rip (hc1 hmem rip h)
    · exact hc2 hmem rip h

/-- Sequencing two query-side steps over the same reference point set. -/
theorem DSpec.seq_query {d k : ℕ} {R : List IPoint} {qI1 qI2 : List ℕ}
    {rpts : List IPoint} {s s1 s2 : DState}
    (h1 : DSpec d k R qI1 rpts s s1) (h2 : DSpec d k R qI2 rpts s1 s2) :
    DSpec d k R (qI1 ++ qI2) rpts s s2 := by
  refine forall2_trans h1 h2 ?_
  rintro e e1 e2 ⟨hk1, hb1, hs1, hw1, hp1, hu1, hc1⟩ ⟨hk2, hb2, hs2, hw2, hp2, hu2, hc2⟩
  rw [hk1] at hk2 hb2 hp2 hu2 hc2
  refine ⟨hk2, hb2, ?_, le_trans hw2 hw1, fun x hx => hp2 x (hp1 x hx), ?_, ?_⟩
  · intro j hj
    rcases hs2 j hj with hj' | hj'
    · exact hs1 j hj'
    · exact Or.inr hj'
  · intro hnot
    rw [List.mem_append, not_or] at hnot
    rw [hu2 hnot.2, hu1 hnot.1]
  · intro hmem rip hrip
    rcases List.mem_append.1 hmem with h | h
    · exact hp2 rip (hc1 h rip hrip)
    · exact hc2 h rip hrip

/-- The reference point list of a `DSpec` can be replaced by a permutation. -/
theorem DSpec.perm_r {d k : ℕ} {R : List IPoint} {qI : List ℕ}
    {rpts rpts' : List IPoint} (hp : List.Perm rpts rpts') {s s' : DState}
    (h : DSpec d k R qI rpts s s') : DSpec d k R qI rpts' s s' := by
  refine List.Forall₂.imp ?_ h
  rintro e e' ⟨hk1, hb1, hs1, hw1, hp1, hu1, hc1⟩
  refine ⟨hk1, hb1, ?_, hw1, hp1, hu1, ?_⟩
  · intro j hj
    rcases hs1 j hj with h' | h'
    · exact Or.inl h'
    · exact Or.inr ((hp.map Prod.fst).mem_iff.1 h')
  · intro hmem rip hrip
    exact hc1 hmem rip (hp.mem_iff.2 hrip)

/-- The query index list of a `DSpec` can be replaced by one with the same members. -/
theorem DSpec.congr_q {d k : ℕ} {R : List IPoint} {qI qI' : List ℕ}
    (hq : ∀ j, j ∈ qI ↔ j ∈ qI') {rpts : List IPoint} {s s' : DState}
    (h : DSpec d k R qI rpts s s') : DSpec d k R qI' rpts s s' := by
  refine List.Forall₂.imp ?_ h
  rintro e e' ⟨hk1, hb1, hs1, hw1, hp1, hu1, hc1⟩
  exact ⟨hk1, hb1, hs1, hw1, hp1, fun hn => hu1 fun hm => hn ((hq _).1 hm),
    fun hm => hc1 ((hq _).2 hm)⟩

/-- A state maps to itself when every relevant query point already covers `rpts`. -/
theorem dspec_prune {d k : ℕ} {R : List IPoint} {qI : List ℕ} {rpts : List IPoint}
    {s : DState} (hbase : ∀ e ∈ s, CandBase d k e.1.2 R e.2)
    (hcov : ∀ e ∈ s, e.1.1 ∈ qI → ∀ rip ∈ rpts, covered d k e.1.2 e.2 rip) :
    DSpec d k R qI rpts s s := by
  rw [DSpec, List.forall₂_same]
  intro e he
  exact ⟨rfl, hbase e he, fun j hj => Or.inl hj, le_rfl, fun x hx => hx,
    fun _ => rfl, hcov e he⟩

/-- `dualLeafSearch` satisfies the dual-tree state evolution relation. -/
theorem dualLeafSearch_spec (d k : ℕ) (hk : 1 ≤ k) (R : List IPoint)
    (qb : HRect) (qps : List IPoint) (hql : ∀ ip ∈ qps, insideRect d ip.2 qb) :
    ∀ (rt : PTree) (s : DState),
      WFT d rt →
      (rt.pts.map Prod.fst).Nodup →
      (∀ rip ∈ rt.pts, rip ∈ R) →
      (∀ e ∈ s, CandBase d k e.1.2 R e.2) →
      (∀ e ∈ s, e.1.1 ∈ qps.map Prod.fst → e.1 ∈ qps) →
      (∀ e ∈ s, e.1.1 ∈ qps.map Prod.fst →
        ∀ j ∈ rt.pts.map Prod.fst, j ∉ e.2.map Prod.snd) →
      DSpec d k R (qps.map Prod.fst) rt.pts s (dualLeafSearch d k qb qps rt s) := by
  intro rt
  induction rt with
  | leaf rb rps =>
    intro s hwr hndr hsubR hbase hcoh hdisj
    by_cases hpr : ∀ e ∈ s, e.1.1 ∈ qps.map Prod.fst →
        worst k e.2 ≤ (minDistRect d qb rb : WithTop ℚ)
    · simp only [dualLeafSearch, if_pos hpr]
      refine dspec_prune hbase ?_
      intro e he hrel rip hrip
      right
      have hq : insideRect d e.1.2 qb := hql e.1 (hcoh e he hrel)
      have hr : insideRect d rip.2 rb := by
        cases hwr with
        | leaf h => exact h rip hrip
      calc worst k e.2 ≤ ((minDistRect d qb rb : ℚ) : WithTop ℚ) := hpr e he hrel
        _ ≤ ((sqDist d e.1.2 rip.2 : ℚ) : WithTop ℚ) :=
          WithTop.coe_le_coe.2 (minDistRect_le hq hr)
    · simp only [dualLeafSearch, if_neg hpr]
      unfold dualLeafLeaf
      refine forall2_map_self ?_
      intro e he
      by_cases hrel : e.1.1 ∈ qps.map Prod.fst
      · rw [if_pos hrel]
        obtain ⟨h1, h2, h3, h4, h5⟩ :=
          processLeaf_spec d k hk e.1.2 R rps e.2 (hbase e he) hsubR hndr
            (fun rip hrip => hdisj e he hrel rip.1 (List.mem_map_of_mem Prod.fst hrip))
        exact ⟨rfl, h1, h2, h3, h4, fun hn => absurd hrel hn, fun _ => h5⟩
      · rw [if_neg hrel]
        exact ⟨rfl, hbase e he, fun j hj => Or.inl hj, le_rfl, fun x hx => hx,
          fun _ => rfl, fun hm => absurd hm hrel⟩
  | node rb rl rr ihl ihr =>
    intro s hwr hndr hsubR hbase hcoh hdisj
    by_cases hpr : ∀ e ∈ s, e.1.1 ∈ qps.map Prod.fst →
        worst k e.2 ≤ (minDistRect d qb rb : WithTop ℚ)
    · simp only [dualLeafSearch, if_pos hpr]
      refine dspec_prune hbase ?_
      intro e he hrel rip hrip
      right
      have hq : insideRect d e.1.2 qb := hql e.1 (hcoh e he hrel)
      have hr : insideRect d rip.2 rb := by
        cases hwr with
        | node h _ _ => exact h rip hrip
      calc worst k e.2 ≤ ((minDistRect d qb rb : ℚ) : WithTop ℚ) := hpr e he hrel
        _ ≤ ((sqDist d e.1.2 rip.2 : ℚ) : WithTop ℚ) :=
          WithTop.coe_le_coe.2 (minDistRect_le hq hr)
    · cases hwr with
      | node hin hwl hwr2 =>
      simp only [PTree.pts, List.map_append] at hndr hsubR hdisj
      rcases List.nodup_append.1 hndr with ⟨hndl2, hndr2, hdisjlr⟩
      have hsubl : ∀ rip ∈ rl.pts, rip ∈ R := fun rip h =>
        hsubR rip (List.mem_append.2 (Or.inl h))
      have hsubr : ∀ rip ∈ rr.pts, rip ∈ R := fun rip h =>
        hsubR rip (List.mem_append.2 (Or.inr h))
      have hdisjL : ∀ e ∈ s, e.1.1 ∈ qps.map Prod.fst →
          ∀ j ∈ rl.pts.map Prod.fst, j ∉ e.2.map Prod.snd := fun e he hrel j hj =>
        hdisj e he hrel j (List.mem_append.2 (Or.inl hj))
      have hdisjR : ∀ e ∈ s, e.1.1 ∈ qps.map Prod.fst →
          ∀ j ∈ rr.pts.map Prod.fst, j ∉ e.2.map Prod.snd := fun e he hrel j hj =>
        hdisj e he hrel j (List.mem_append.2 (Or.inr hj))
      have hnext : ∀ (ra rb' : PTree),
          (∀ s' : DState, WFT d ra → (ra.pts.map Prod.fst).Nodup →
            (∀ rip ∈ ra.pts, rip ∈ R) →
            (∀ e ∈ s', CandBase d k e.1.2 R e.2) →
            (∀ e ∈ s', e.1.1 ∈ qps.map Prod.fst → e.1 ∈ qps) →
            (∀ e ∈ s', e.1.1 ∈ qps.map Prod.fst →
              ∀ j ∈ ra.pts.map Prod.fst, j ∉ e.2.map Prod.snd) →
            DSpec d k R (qps.map Prod.fst) ra.pts s'
              (dualLeafSearch d k qb qps ra s')) →
          (∀ s' : DState, WFT d rb' → (rb'.pts.map Prod.fst).Nodup →
            (∀ rip ∈ rb'.pts, rip ∈ R) →
            (∀ e ∈ s', CandBase d k e.1.2 R e.2) →
            (∀ e ∈ s', e.1.1 ∈ qps.map Prod.fst → e.1 ∈ qps) →
            (∀ e ∈ s', e.1.1 ∈ qps.map Prod.fst →
              ∀ j ∈ rb'.pts.map Prod.fst, j ∉ e.2.map Prod.snd) →
            DSpec d k R (qps.map Prod.fst) rb'.pts s'
              (dualLeafSearch d k qb qps rb' s')) →
          WFT d ra → WFT d rb' →
          (ra.pts.map Prod.fst).Nodup → (rb'.pts.map Prod.fst).Nodup →
          (∀ rip ∈ ra.pts, rip ∈ R) → (∀ rip ∈ rb'.pts, rip ∈ R) →
          List.Disjoint (ra.pts.map Prod.fst) (rb'.pts.map Prod.fst) →
          (∀ e ∈ s, e.1.1 ∈ qps.map Prod.fst →
            ∀ j ∈ ra.pts.map Prod.fst, j ∉ e.2.map Prod.snd) →
          (∀ e ∈ s, e.1.1 ∈ qps.map Prod.fst →
            ∀ j ∈ rb'.pts.map Prod.fst, j ∉ e.2.map Prod.snd) →
          DSpec d k R (qps.map Prod.fst) (ra.pts ++ rb'.pts) s
            (dualLeafSearch d k qb qps rb' (dualLeafSearch d k qb qps ra s)) := by
        intro ra rb' iha ihb hwa hwb hnda hndb hsua hsub2 hdispair hda hdb
        have h1 := iha s hwa hnda hsua hbase hcoh hda
        have hbase1 : ∀ e1 ∈ dualLeafSearch d k qb qps ra s,
            CandBase d k e1.1.2 R e1.2 := by
          intro e1 he1
          rcases forall2_mem_right h1 he1 with ⟨e, _, hst⟩
          rw [hst.1]
          exact hst.2.1
        have hcoh1 : ∀ e1 ∈ dualLeafSearch d k qb qps ra s,
            e1.1.1 ∈ qps.map Prod.fst → e1.1 ∈ qps := by
          intro e1 he1 hrel
          rcases forall2_mem_right h1 he1 with ⟨e, he, hst⟩
          rw [hst.1] at hrel ⊢
          exact hcoh e he hrel
        have hdisj1 : ∀ e1 ∈ dualLeafSearch d k qb qps ra s,
            e1.1.1 ∈ qps.map Prod.fst →
            ∀ j ∈ rb'.pts.map Prod.fst, j ∉ e1.2.map Prod.snd := by
          intro e1 he1 hrel j hj hmem
          rcases forall2_mem_right h1 he1 with ⟨e, he, hst⟩
          rw [hst.1] at hrel
          rcases hst.2.2.1 j hmem with h' | h'
          · exact hdb e he hrel j hj h'
          · exact hdispair h' hj
        have h2 := ihb (dualLeafSearch d k qb qps ra s) hwb hndb hsub2 hbase1 hcoh1 hdisj1
        exact h1.seq_ref h2
      simp only [dualLeafSearch, if_neg hpr, PTree.pts]
      by_cases hord : minDistRect d qb rl.bound ≤ minDistRect d qb rr.bound
      · rw [if_pos hord]
        exact hnext rl rr ihl ihr hwl hwr2 hndl2 hndr2 hsubl hsubr hdisjlr hdisjL hdisjR
      · rw [if_neg hord]
        refine DSpec.perm_r List.perm_append_comm ?_
        exact hnext rr rl ihr ihl hwr2 hwl hndr2 hndl2 hsubr hsubl
          (List.disjoint_right.2 hdisjlr) hdisjR hdisjL

/-- Candidate invariants persist across a dual-tree step. -/
theorem dspec_base {d k : ℕ} {R : List IPoint} {qI : List ℕ} {rpts : List IPoint}
    {s s' : DState} (h : DSpec d k R qI rpts s s') :
    ∀ e' ∈ s', CandBase d k e'.1.2 R e'.2 := by
  intro e' he'
  rcases forall2_mem_right h he' with ⟨e, _, hst⟩
  rw [hst.1]
  exact hst.2.1

/-- Key coherence persists across a dual-tree step. -/
theorem dspec_coh {d k : ℕ} {R : List IPoint} {qI : List ℕ} {rpts : List IPoint}
    {s s' : DState} (h : DSpec d k R qI rpts s s') {J : List ℕ} {P : List IPoint}
    (hcoh : ∀ e ∈ s, e.1.1 ∈ J → e.1 ∈ P) :
    ∀ e' ∈ s', e'.1.1 ∈ J → e'.1 ∈ P := by
  intro e' he' hrel
  rcases forall2_mem_right h he' with ⟨e, he, hst⟩
  rw [hst.1] at hrel ⊢
  exact hcoh e he hrel

/-- Index disjointness with a fresh index set `K` persists across a dual-tree step that
only adds indices disjoint from `K`. -/
theorem dspec_disj {d k : ℕ} {R : List IPoint} {qI : List ℕ} {rpts : List IPoint}
    {s s' : DState} (h : DSpec d k R qI rpts s s') {J K : List ℕ}
    (hd : ∀ e ∈ s, e.1.1 ∈ J → ∀ j ∈ K, j ∉ e.2.map Prod.snd)
    (hKr : ∀ j ∈ K, j ∉ rpts.map Prod.fst) :
    ∀ e' ∈ s', e'.1.1 ∈ J → ∀ j ∈ K, j ∉ e'.2.map Prod.snd := by
  intro e' he' hrel j hj hmem
  rcases forall2_mem_right h he' with ⟨e, he, hst⟩
  rw [hst.1] at hrel
  rcases hst.2.2.1 j hmem with h' | h'
  · exact hd e he hrel j hj h'
  · exact hKr j hj h'

/-- Entries whose query index is outside the processed query set are unchanged. -/
theorem dspec_frozen {d k : ℕ} {R : List IPoint} {qI : List ℕ} {rpts : List IPoint}
    {s s' : DState} (h : DSpec d k R qI rpts s s') {J : List ℕ}
    (hJq : ∀ j ∈ J, j ∉ qI) :
    ∀ e' ∈ s', e'.1.1 ∈ J → ∃ e ∈ s, e'.1 = e.1 ∧ e'.2 = e.2 := by
  intro e' he' hrel
  rcases forall2_mem_right h he' with ⟨e, he, hst⟩
  refine ⟨e, he, hst.1, hst.2.2.2.2.2.1 ?_⟩
  rw [← hst.1]
  exact hJq _ hrel

/-- `dualSearch` satisfies the dual-tree state evolution relation. -/
theorem dualSearch_spec (d k : ℕ) (hk : 1 ≤ k) (R : List IPoint) :
    ∀ (qt rt : PTree) (s : DState),
      WFT d qt → WFT d rt →
      (qt.pts.map Prod.fst).Nodup →
      (rt.pts.map Prod.fst).Nodup →
      (∀ rip ∈ rt.pts, rip ∈ R) →
      (∀ e ∈ s, CandBase d k e.1.2 R e.2) →
      (∀ e ∈ s, e.1.1 ∈ qt.pts.map Prod.fst → e.1 ∈ qt.pts) →
      (∀ e ∈ s, e.1.1 ∈ qt.pts.map Prod.fst →
        ∀ j ∈ rt.pts.map Prod.fst, j ∉ e.2.map Prod.snd) →
      DSpec d k R (qt.pts.map Prod.fst) rt.pts s (dualSearch d k qt rt s) := by
  intro qt
  induction qt with
  | leaf qb qps =>
    intro rt s hwq hwr hndq hndr hsubR hbase hcoh hdisj
    cases hwq with
    | leaf hql =>
      exact dualLeafSearch_spec d k hk R qb qps hql rt s hwr hndr hsubR hbase hcoh hdisj
  | node qb ql qr ihql ihqr =>
    intro rt s hwq hwr hndq hndr hsubR hbase hcoh hdisj
    cases hwq with
    | node hin hwql hwqr =>
    by_cases hpr : ∀ e ∈ s, e.1.1 ∈ (ql.pts ++ qr.pts).map Prod.fst →
        worst k e.2 ≤ (minDistRect d qb rt.bound : WithTop ℚ)
    · simp only [dualSearch, if_pos hpr]
      refine dspec_prune hbase ?_
      intro e he hrel rip hrip
      right
      have hq : insideRect d e.1.2 qb := hin e.1 (hcoh e he hrel)
      have hr : insideRect d rip.2 rt.bound := hwr.inside_bound rip hrip
      calc worst k e.2 ≤ ((minDistRect d qb rt.bound : ℚ) : WithTop ℚ) := hpr e he hrel
        _ ≤ ((sqDist d e.1.2 rip.2 : ℚ) : WithTop ℚ) :=
          WithTop.coe_le_coe.2 (minDistRect_le hq hr)
    · simp only [PTree.pts, List.map_append] at hndq hcoh hdisj
      rcases List.nodup_append.1 hndq with ⟨hndql, hndqr, hdisjq⟩
      have hcohl : ∀ e ∈ s, e.1.1 ∈ ql.pts.map Prod.fst → e.1 ∈ ql.pts := by
        intro e he hrel
        rcases List.mem_append.1 (hcoh e he (List.mem_append.2 (Or.inl hrel))) with h | h
        · exact h
        · exact absurd (List.mem_map_of_mem Prod.fst h) fun hm => hdisjq hrel hm
      have hcohr : ∀ e ∈ s, e.1.1 ∈ qr.pts.map Prod.fst → e.1 ∈ qr.pts := by
        intro e he hrel
        rcases List.mem_append.1 (hcoh e he (List.mem_append.2 (Or.inr hrel))) with h | h
        · exact absurd hrel fun hm => hdisjq (List.mem_map_of_mem Prod.fst h) hm
        · exact h
      have hdisjLq : ∀ e ∈ s, e.1.1 ∈ ql.pts.map Prod.fst →
          ∀ j ∈ rt.pts.map Prod.fst, j ∉ e.2.map Prod.snd := fun e he hrel =>
        hdisj e he (List.mem_append.2 (Or.inl hrel))
      have hdisjRq : ∀ e ∈ s, e.1.1 ∈ qr.pts.map Prod.fst →
          ∀ j ∈ rt.pts.map Prod.fst, j ∉ e.2.map Prod.snd := fun e he hrel =>
        hdisj e he (List.mem_append.2 (Or.inr hrel))
      cases rt with
      | leaf rb rps =>
        simp only [dualSearch, if_neg hpr]
        have h1 := ihql (.leaf rb rps) s hwql hwr hndql hndr hsubR hbase hcohl hdisjLq
        have hfrozen : ∀ e' ∈ dualSearch d k ql (.leaf rb rps) s,
            e'.1.1 ∈ qr.pts.map Prod.fst →
            ∀ j ∈ (PTree.leaf rb rps).pts.map Prod.fst, j ∉ e'.2.map Prod.snd := by
          intro e' he' hrel j hj hmem
          rcases dspec_frozen h1 (fun j2 hj2 hm2 => hdisjq hm2 hj2) e' he' hrel with
            ⟨e, he, hq1, hq2⟩
          rw [hq2] at hmem
          rw [hq1] at hrel
          exact hdisjRq e he hrel j hj hmem
        have h2 := ihqr (.leaf rb rps) (dualSearch d k ql (.leaf rb rps) s) hwqr hwr
          hndqr hndr hsubR (dspec_base h1) (dspec_coh h1 hcohr) hfrozen
        refine DSpec.congr_q ?_ (h1.seq_query h2)
        intro j
        simp [PTree.pts]
      | node rb rl rr =>
        cases hwr with
        | node hinr hwrl hwrr =>
        simp only [PTree.pts, List.map_append] at hndr hsubR hdisjLq hdisjRq
        rcases List.nodup_append.1 hndr with ⟨hndrl, hndrr, hdisjr⟩
        have hsubrl : ∀ rip ∈ rl.pts, rip ∈ R := fun rip h =>
          hsubR rip (List.mem_append.2 (Or.inl h))
        have hsubrr : ∀ rip ∈ rr.pts, rip ∈ R := fun rip h =>
          hsubR rip (List.mem_append.2 (Or.inr h))
        have hdisjLrl : ∀ e ∈ s, e.1.1 ∈ ql.pts.map Prod.fst →
            ∀ j ∈ rl.pts.map Prod.fst, j ∉ e.2.map Prod.snd := fun e he hrel j hj =>
          hdisjLq e he hrel j (List.mem_append.2 (Or.inl hj))
        have hdisjLrr : ∀ e ∈ s, e.1.1 ∈ ql.pts.map Prod.fst →
            ∀ j ∈ rr.pts.map Prod.fst, j ∉ e.2.map Prod.snd := fun e he hrel j hj =>
          hdisjLq e he hrel j (List.mem_append.2 (Or.inr hj))
        have hdisjRrl : ∀ e ∈ s, e.1.1 ∈ qr.pts.map Prod.fst →
            ∀ j ∈ rl.pts.map Prod.fst, j ∉ e.2.map Prod.snd := fun e he hrel j hj =>
          hdisjRq e he hrel j (List.mem_append.2 (Or.inl hj))
        have hdisjRrr : ∀ e ∈ s, e.1.1 ∈ qr.pts.map Prod.fst →
            ∀ j ∈ rr.pts.map Prod.fst, j ∉ e.2.map Prod.snd := fun e he hrel j hj =>
          hdisjRq e he hrel j (List.mem_append.2 (Or.inr hj))
        have hblock : ∀ (qc : PTree),
            (∀ (rt2 : PTree) (s' : DState), WFT d qc → WFT d rt2 →
              (qc.pts.map Prod.fst).Nodup → (rt2.pts.map Prod.fst).Nodup →
              (∀ rip ∈ rt2.pts, rip ∈ R) →
              (∀ e ∈ s', CandBase d k e.1.2 R e.2) →
              (∀ e ∈ s', e.1.1 ∈ qc.pts.map Prod.fst → e.1 ∈ qc.pts) →
              (∀ e ∈ s', e.1.1 ∈ qc.pts.map Prod.fst →
                ∀ j ∈ rt2.pts.map Prod.fst, j ∉ e.2.map Prod.snd) →
              DSpec d k R (qc.pts.map Prod.fst) rt2.pts s'
                (dualSearch d k qc rt2 s')) →
            WFT d qc → (qc.pts.map Prod.fst).Nodup →
            ∀ (s' : DState),
              (∀ e ∈ s', CandBase d k e.1.2 R e.2) →
              (∀ e ∈ s', e.1.1 ∈ qc.pts.map Prod.fst → e.1 ∈ qc.pts) →
              (∀ e ∈ s', e.1.1 ∈ qc.pts.map Prod.fst →
                ∀ j ∈ rl.pts.map Prod.fst, j ∉ e.2.map Prod.snd) →
              (∀ e ∈ s', e.1.1 ∈ qc.pts.map Prod.fst →
                ∀ j ∈ rr.pts.map Prod.fst, j ∉ e.2.map Prod.snd) →
              DSpec d k R (qc.pts.map Prod.fst) (rl.pts ++ rr.pts) s'
                (if minDistRect d qc.bound rl.bound ≤ minDistRect d qc.bound rr.bound
                  then dualSearch d k qc rr (dualSearch d k qc rl s')
                  else dualSearch d k qc rl (dualSearch d k qc rr s')) := by
          intro qc ihc hwc hndc s' hbase' hcoh' hdl' hdr'
          by_cases hordc : minDistRect d qc.bound rl.bound ≤ minDistRect d qc.bound rr.bound
          · rw [if_pos hordc]
            have ha := ihc rl s' hwc hwrl hndc hndrl hsubrl hbase' hcoh' hdl'
            have hb := ihc rr (dualSearch d k qc rl s') hwc hwrr hndc hndrr hsubrr
              (dspec_base ha) (dspec_coh ha hcoh')
              (dspec_disj ha hdr' fun j hj hm => hdisjr hm hj)
            exact ha.seq_ref hb
          · rw [if_neg hordc]
            have ha := ihc rr s' hwc hwrr hndc hndrr hsubrr hbase' hcoh' hdr'
            have hb := ihc rl (dualSearch d k qc rr s') hwc hwrl hndc hndrl hsubrl
              (dspec_base ha) (dspec_coh ha hcoh')
              (dspec_disj ha hdl' fun j hj hm => hdisjr hj hm)
            exact DSpec.perm_r List.perm_append_comm (ha.seq_ref hb)
        simp only [dualSearch, if_neg hpr]
        have h1 := hblock ql ihql hwql hndql s hbase hcohl hdisjLrl hdisjLrr
        have hfrozenl : ∀ e' ∈
            (if minDistRect d ql.bound rl.bound ≤ minDistRect d ql.bound rr.bound
              then dualSearch d k ql rr (dualSearch d k ql rl s)
              else dualSearch d k ql rl (dualSearch d k ql rr s)),
            e'.1.1 ∈ qr.pts.map Prod.fst →
            ∀ j ∈ rl.pts.map Prod.fst, j ∉ e'.2.map Prod.snd := by
          intro e' he' hrel j hj hmem
          rcases dspec_frozen h1 (fun j2 hj2 hm2 => hdisjq hm2 hj2) e' he' hrel with
            ⟨e, he, hq1, hq2⟩
          rw [hq2] at hmem
          rw [hq1] at hrel
          exact hdisjRrl e he hrel j hj hmem
        have hfrozenr : ∀ e' ∈
            (if minDistRect d ql.bound rl.bound ≤ minDistRect d ql.bound rr.bound
              then dualSearch d k ql rr (dualSearch d k ql rl s)
              else dualSearch d k ql rl (dualSearch d k ql rr s)),
            e'.1.1 ∈ qr.pts.map Prod.fst →
            ∀ j ∈ rr.pts.map Prod.fst, j ∉ e'.2.map Prod.snd := by
          intro e' he' hrel j hj hmem
          rcases dspec_frozen h1 (fun j2 hj2 hm2 => hdisjq hm2 hj2) e' he' hrel with
            ⟨e, he, hq1, hq2⟩
          rw [hq2] at hmem
          rw [hq1] at hrel
          exact hdisjRrr e he hrel j hj hmem
        have h2 := hblock qr ihqr hwqr hndqr _ (dspec_base h1) (dspec_coh h1 hcohr)
          hfrozenl hfrozenr
        have h12 := h1.seq_query h2
        refine DSpec.congr_q ?_ (DSpec.perm_r ?_ h12)
        · intro j
          simp [PTree.pts]
        · exact List.Perm.refl _

theorem forall2_mem_left {α β : Type} {Rel : α → β → Prop} {l : List α} {l' : List β}
    (h : List.Forall₂ Rel l l') {a : α} (ha : a ∈ l) : ∃ b ∈ l', Rel a b := by
  induction h with
  | nil => simp at ha
  | cons hr hrest ih =>
    rcases List.mem_cons.1 ha with rfl | ha'
    · exact ⟨_, List.mem_cons_self _ _, hr⟩
    · rcases ih ha' with ⟨b, hb, hab⟩
      exact ⟨b, List.mem_cons_of_mem _ hb, hab⟩

theorem dspec_keys {d k : ℕ} {R : List IPoint} {qI : List ℕ} {rpts : List IPoint}
    {s s' : DState} (h : DSpec d k R qI rpts s s') :
    s'.map Prod.fst = s.map Prod.fst := by
  induction h with
  | nil => rfl
  | cons hr hrest ih =>
    simp only [List.map_cons, ih, hr.1]

/-! ## Top-level search runs -/

/-- Initial dual-tree state: one empty candidate list per query point, in tree-internal
query order. -/
def initState (qt : PTree) : DState := qt.pts.map fun qip => (qip, [])

/-- A full single-tree-mode run for one query point, on the tree built over `refs`. -/
def singleRun (d k ls : ℕ) (refs : List Point) (q : Point) : Cand :=
  singleSearch d k q (buildTreeTop d ls refs) []

/-- A full dual-tree-mode run: final state over all query points. -/
def dualRun (d k ls : ℕ) (refs queries : List Point) : DState :=
  dualSearch d k (buildTreeTop d ls queries) (buildTreeTop d ls refs)
    (initState (buildTreeTop d ls queries))

theorem buildTreeTop_pts_perm (d ls : ℕ) (pts : List Point) :
    List.Perm (buildTreeTop d ls pts).pts pts.enum :=
  buildTree_perm d ls pts.length pts.enum

theorem buildTreeTop_idx_nodup (d ls : ℕ) (pts : List Point) :
    ((buildTreeTop d ls pts).pts.map Prod.fst).Nodup :=
  oldFromNew_nodup d ls pts

/-- Single-tree mode returns an exact `k`-nearest-neighbor answer. -/
theorem singleRun_exact (d k ls : ℕ) (hk : 1 ≤ k) (refs : List Point) (q : Point) :
    exactKNN d k refs q (singleRun d k ls refs q) := by
  have hperm := buildTreeTop_pts_perm d ls refs
  obtain ⟨hb, _, _, _, hcov⟩ :=
    singleSearch_spec d k hk q refs.enum (buildTreeTop d ls refs) []
      (buildTree_wft d ls refs.length refs.enum)
      (candBase_nil d k q _)
      (fun rip h => hperm.subset h)
      (buildTreeTop_idx_nodup d ls refs)
      (by simp)
  exact exact_of_covered hk hb fun rip hrip => hcov rip (hperm.mem_iff.2 hrip)

/-- Dual-tree mode: every entry of the final state is an exact answer for its own query
point, and the final state answers exactly the query points (one entry each). -/
theorem dualRun_exact (d k ls : ℕ) (hk : 1 ≤ k) (refs queries : List Point) :
    (∀ e ∈ dualRun d k ls refs queries, exactKNN d k refs e.1.2 e.2) ∧
    List.Perm ((dualRun d k ls refs queries).map Prod.fst) queries.enum := by
  have hpermr := buildTreeTop_pts_perm d ls refs
  have hpermq := buildTreeTop_pts_perm d ls queries
  have hs0 : ∀ e ∈ initState (buildTreeTop d ls queries),
      e.2 = ([] : Cand) ∧ e.1 ∈ (buildTreeTop d ls queries).pts := by
    intro e he
    rcases List.mem_map.1 he with ⟨qip, hqip, rfl⟩
    exact ⟨rfl, hqip⟩
  have h := dualSearch_spec d k hk refs.enum (buildTreeTop d ls queries)
    (buildTreeTop d ls refs) (initState (buildTreeTop d ls queries))
    (buildTree_wft d ls queries.length queries.enum)
    (buildTree_wft d ls refs.length refs.enum)
    (buildTreeTop_idx_nodup d ls queries)
    (buildTreeTop_idx_nodup d ls refs)
    (fun rip hr => hpermr.subset hr)
    (fun e he => (hs0 e he).1 ▸ candBase_nil d k e.1.2 _)
    (fun e he _ => (hs0 e he).2)
    (fun e he _ j _ => by rw [(hs0 e he).1]; simp)
  constructor
  · intro e' he'
    rcases forall2_mem_right h he' with ⟨e, he, hst⟩
    obtain ⟨hnil, hmem⟩ := hs0 e he
    have hrel : e.1.1 ∈ (buildTreeTop d ls queries).pts.map Prod.fst :=
      List.mem_map_of_mem Prod.fst hmem
    have hcov := hst.2.2.2.2.2.2 hrel
    have hbse := hst.2.1
    rw [hst.1]
    exact exact_of_covered hk hbse fun rip hrip => hcov rip (hpermr.mem_iff.2 hrip)
  · have hkeys := dspec_keys h
    rw [dualRun, hkeys]
    have : (initState (buildTreeTop d ls queries)).map Prod.fst =
        (buildTreeTop d ls queries).pts := by
      rw [initState, List.map_map]
      have hfun : (Prod.fst ∘ fun qip : IPoint => (qip, ([] : Cand))) = id := rfl
      rw [hfun, List.map_id]
    rw [this]
    exact hpermq

/-! ## Tree-internal indexing

The search engine reports neighbor indices and query columns in tree-internal order
(the tree constructors physically reorder the matrices); `relabel` re-tags the points of
a built tree with their tree-internal positions, which is the index space the driver's
remapping step receives (spec §4.5, `allknn_main.cpp` lines 160–178). -/

def relabelPts : ℕ → List IPoint → List IPoint
  | _, [] => []
  | n, ip :: rest => (n, ip.2) :: relabelPts (n + 1) rest

def relabelAux : PTree → ℕ → PTree × ℕ
  | .leaf b ps, n => (.leaf b (relabelPts n ps), n + ps.length)
  | .node b l r, n =>
    (.node b (relabelAux l n).1 (relabelAux r (relabelAux l n).2).1,
      (relabelAux r (relabelAux l n).2).2)

def relabel (t : PTree) : PTree := (relabelAux t 0).1

theorem relabelPts_length : ∀ (n : ℕ) (ps : List IPoint),
    (relabelPts n ps).length = ps.length := by
  intro n ps
  induction ps generalizing n with
  | nil => rfl
  | cons ip rest ih => simp [relabelPts, ih]

theorem relabelAux_pts_length : ∀ (t : PTree) (n : ℕ),
    ((relabelAux t n).1).pts.length = t.pts.length := by
  intro t
  induction t with
  | leaf b ps => intro n; simp [relabelAux, PTree.pts, relabelPts_length]
  | node b l r ihl ihr => intro n; simp [relabelAux, PTree.pts, ihl, ihr]

theorem relabel_pts_length (t : PTree) : (relabel t).pts.length = t.pts.length :=
  relabelAux_pts_length t 0

/-! ## Search mode selection and output matrices

Modelled from the spec (§4.3 "Mode selection policy"): the mode dispatch inside
`NeighborSearch` (not under `src/`) — an explicit naive flag forces naive mode
regardless of other flags; otherwise the single-tree flag selects single-tree over the
dual-tree default. -/

inductive SMode where
  | naiveM
  | singleM
  | dualM

/-- Mode selection from the two flags the driver passes to `AllkNN`. -/
def modeOf (naive single : Bool) : SMode :=
  if naive then .naiveM else if single then .singleM else .dualM

/-- The search-output matrices, as column lists in tree-internal query order, carrying
tree-internal reference indices: distances matrix and neighbors matrix (spec §2, §4.3;
both are ascending per column via `finalizeCand`). -/
def searchMatrices (d k : ℕ) (mode : SMode) (rt qt : PTree) :
    List (List ℚ) × List (List ℕ) :=
  let cols : List Cand :=
    match mode with
    | .naiveM =>
      (relabel qt).pts.map fun qip => finalizeCand (processLeaf d k qip.2 (relabel rt).pts [])
    | .singleM =>
      (relabel qt).pts.map fun qip => finalizeCand (singleSearch d k qip.2 (relabel rt) [])
    | .dualM =>
      (dualSearch d k (relabel qt) (relabel rt) (initState (relabel qt))).map fun e =>
        finalizeCand e.2
  (cols.map fun c => c.map Prod.fst, cols.map fun c => c.map Prod.snd)

theorem dualLeafSearch_length (d k : ℕ) (qb : HRect) (qps : List IPoint) :
    ∀ (rt : PTree) (s : DState), (dualLeafSearch d k qb qps rt s).length = s.length := by
  intro rt
  induction rt with
  | leaf rb rps =>
    intro s
    by_cases h : ∀ e ∈ s, e.1.1 ∈ qps.map Prod.fst →
        worst k e.2 ≤ (minDistRect d qb rb : WithTop ℚ)
    · simp [dualLeafSearch, if_pos h]
    · simp [dualLeafSearch, if_neg h, dualLeafLeaf]
  | node rb rl rr ihl ihr =>
    intro s
    by_cases h : ∀ e ∈ s, e.1.1 ∈ qps.map Prod.fst →
        worst k e.2 ≤ (minDistRect d qb rb : WithTop ℚ)
    · simp [dualLeafSearch, if_pos h]
    · by_cases h2 : minDistRect d qb rl.bound ≤ minDistRect d qb rr.bound
      · simp [dualLeafSearch, if_neg h, if_pos h2, ihl, ihr]
      · simp [dualLeafSearch, if_neg h, if_neg h2, ihl, ihr]

theorem dualSearch_length (d k : ℕ) :
    ∀ (qt rt : PTree) (s : DState), (dualSearch d k qt rt s).length = s.length := by
  intro qt
  induction qt with
  | leaf qb qps =>
    intro rt s
    exact dualLeafSearch_length d k qb qps rt s
  | node qb ql qr ihl ihr =>
    intro rt s
    by_cases h : ∀ e ∈ s, e.1.1 ∈ (ql.pts ++ qr.pts).map Prod.fst →
        worst k e.2 ≤ (minDistRect d qb rt.bound : WithTop ℚ)
    · simp [dualSearch, if_pos h]
    · cases rt with
      | leaf rb rps =>
        simp [dualSearch, if_neg h, ihl, ihr]
      | node rb rl rr =>
        by_cases h2 : minDistRect d qr.bound rl.bound ≤ minDistRect d qr.bound rr.bound
        · by_cases h3 : minDistRect d ql.bound rl.bound ≤ minDistRect d ql.bound rr.bound
          · simp [dualSearch, if_neg h, if_pos h2, if_pos h3, ihl, ihr]
          · simp [dualSearch, if_neg h, if_pos h2, if_neg h3, ihl, ihr]
        · by_cases h3 : minDistRect d ql.bound rl.bound ≤ minDistRect d ql.bound rr.bound
          · simp [dualSearch, if_neg h, if_neg h2, if_pos h3, ihl, ihr]
          · simp [dualSearch, if_neg h, if_neg h2, if_neg h3, ihl, ihr]

theorem searchMatrices_fst_length (d k : ℕ) (mode : SMode) (rt qt : PTree) :
    (searchMatrices d k mode rt qt).1.length = qt.pts.length := by
  cases mode with
  | naiveM => simp [searchMatrices, relabel_pts_length]
  | singleM => simp [searchMatrices, relabel_pts_length]
  | dualM =>
    simp [searchMatrices, dualSearch_length, initState, relabel_pts_length]

/-! ## The driver: `main` of `allknn_main.cpp`

This part is translated from the source file itself.  `Args` holds the values the
out-of-scope CLI/IO layer hands to `main` (the two loaded matrices and the parameters);
`Run` records the observable effects.  `Log::Fatal` terminates the program, modelled by
returning immediately with the corresponding outcome and no further effects. -/

structure Args where
  d : ℕ
  refData : List Point
  queryData : Option (List Point)
  k : ℕ
  leafSize : ℤ
  naive : Bool
  singleMode : Bool

inductive Outcome where
  | fatalK
  | fatalLeaf
  | remapOOB
  | saved (distances : List (List ℚ)) (neighbors : List (List ℕ))
deriving DecidableEq

structure Run where
  refTreeLeaf : Option ℕ
  queryTreeLeaf : Option ℕ
  allknnLeaf : Option ℕ
  allknnNaive : Option Bool
  allknnSingle : Option Bool
  searchRan : Bool
  warnedSingleIgnored : Bool
  oldFromNewRefsFinal : Option (List ℕ)
  oldFromNewQueriesFinal : Option (List ℕ)
  outcome : Outcome

/-- The remapping double loop, `allknn_main.cpp` lines 164–178:
`distancesOut.col(oldFromNewQueries[i]) = distances.col(i)` and
`neighborsOut(j, oldFromNewQueries[i]) = oldFromNewRefs[neighbors(j, i)]`.
Any vector access out of bounds (C++ undefined behavior) returns `none`. -/
def remapSaved (ofnQ ofnR : List ℕ) (ds : List (List ℚ)) (ns : List (List ℕ)) :
    Option (List (List ℚ) × List (List ℕ)) :=
  (List.range ds.length).foldlM
    (fun acc i => do
      let oq ← ofnQ[i]?
      let dcol ← ds[i]?
      let ncol ← ns[i]?
      let ncol2 ← ncol.mapM fun j => ofnR[j]?
      if oq < ds.length then
        pure (acc.1.set oq dcol, acc.2.set oq ncol2)
      else none)
    (List.replicate ds.length [], List.replicate ds.length [])

/-- The driver `main` (`allknn_main.cpp` lines 54–185), from the point where the
reference matrix has been loaded.  Notable source facts carried over faithfully:
* line 81: `(k <= 0) || (k >= referenceData.n_cols)` is fatal;
* line 89: `leafSize < 0` is fatal;
* lines 96–99: warning when both `--naive` and `--single_mode` are given;
* line 116: the reference tree is built with the user leaf size, recording
  `oldFromNewRefs`;
* line 139: the query tree is also built onto `oldFromNewRefs` (not
  `oldFromNewQueries`), overwriting the reference permutation;
* line 120: `oldFromNewQueries` is declared and never filled, so it is empty at the
  remapping loop;
* lines 143/150: `AllkNN` is constructed with the literal leaf size `20`;
* lines 181–182: `data::Save` is called on `distances`/`neighbors`, the pre-remap
  matrices, not on `distancesOut`/`neighborsOut`. -/
def driverRun (a : Args) : Run :=
  if a.k ≤ 0 ∨ a.refData.length ≤ a.k then
    ⟨none, none, none, none, none, false, false, none, none, .fatalK⟩
  else if a.leafSize < 0 then
    ⟨none, none, none, none, none, false, false, none, none, .fatalLeaf⟩
  else
    let warned := a.singleMode && a.naive
    let ls := a.leafSize.toNat
    let refTree := buildTreeTop a.d ls a.refData
    let oldFromNewRefs := oldFromNew refTree
    match a.queryData with
    | some qd =>
      let queryTree := buildTreeTop a.d ls qd
      let oldFromNewRefs := oldFromNew queryTree
      let oldFromNewQueries : List ℕ := []
      let mode := modeOf a.naive a.singleMode
      let dn := searchMatrices a.d a.k mode refTree queryTree
      match remapSaved oldFromNewQueries oldFromNewRefs dn.1 dn.2 with
      | none =>
        ⟨some ls, some ls, some 20, some a.naive, some a.singleMode, true, warned,
          some oldFromNewRefs, some oldFromNewQueries, .remapOOB⟩
      | some _ =>
        ⟨some ls, some ls, some 20, some a.naive, some a.singleMode, true, warned,
          some oldFromNewRefs, some oldFromNewQueries, .saved dn.1 dn.2⟩
    | none =>
      let oldFromNewQueries : List ℕ := []
      let mode := modeOf a.naive a.singleMode
      let dn := searchMatrices a.d a.k mode refTree refTree
      match remapSaved oldFromNewQueries oldFromNewRefs dn.1 dn.2 with
      | none =>
        ⟨some ls, none, some 20, some a.naive, some a.singleMode, true, warned,
          some oldFromNewRefs, some oldFromNewQueries, .remapOOB⟩
      | some _ =>
        ⟨some ls, none, some 20, some a.naive, some a.singleMode, true, warned,
          some oldFromNewRefs, some oldFromNewQueries, .saved dn.1 dn.2⟩

/-- With an empty query-side permutation and at least one output column, the remapping
loop's very first access `oldFromNewQueries[0]` is out of bounds. -/
theorem remapSaved_nil_oob (ofnR : List ℕ) (ds : List (List ℚ)) (ns : List (List ℕ))
    (h : ds.length ≠ 0) : remapSaved [] ofnR ds ns = none := by
  rw [remapSaved]
  obtain ⟨m, hm⟩ : ∃ m, ds.length = m + 1 := ⟨ds.length - 1, by omega⟩
  rw [hm, List.range_succ_eq_map, List.foldlM_cons]
  simp

/-- Unfolding of `driverRun` past the validation checks, separate-query-set branch. -/
theorem driverRun_query_eq (a : Args) (qd : List Point)
    (h1 : ¬(a.k ≤ 0 ∨ a.refData.length ≤ a.k)) (h2 : ¬ a.leafSize < 0)
    (hq : a.queryData = some qd) :
    driverRun a =
      match remapSaved [] (oldFromNew (buildTreeTop a.d a.leafSize.toNat qd))
          (searchMatrices a.d a.k (modeOf a.naive a.singleMode)
            (buildTreeTop a.d a.leafSize.toNat a.refData)
            (buildTreeTop a.d a.leafSize.toNat qd)).1
          (searchMatrices a.d a.k (modeOf a.naive a.singleMode)
            (buildTreeTop a.d a.leafSize.toNat a.refData)
            (buildTreeTop a.d a.leafSize.toNat qd)).2 with
      | none =>
        ⟨some a.leafSize.toNat, some a.leafSize.toNat, some 20, some a.naive,
          some a.singleMode, true, a.singleMode && a.naive,
          some (oldFromNew (buildTreeTop a.d a.leafSize.toNat qd)), some [],
          .remapOOB⟩
      | some _ =>
        ⟨some a.leafSize.toNat, some a.leafSize.toNat, some 20, some a.naive,
          some a.singleMode, true, a.singleMode && a.naive,
          some (oldFromNew (buildTreeTop a.d a.leafSize.toNat qd)), some [],
          .saved (searchMatrices a.d a.k (modeOf a.naive a.singleMode)
              (buildTreeTop a.d a.leafSize.toNat a.refData)
              (buildTreeTop a.d a.leafSize.toNat qd)).1
            (searchMatrices a.d a.k (modeOf a.naive a.singleMode)
              (buildTreeTop a.d a.leafSize.toNat a.refData)
              (buildTreeTop a.d a.leafSize.toNat qd)).2⟩ := by
  unfold driverRun
  rw [if_neg h1, if_neg h2, hq]

/-- Unfolding of `driverRun` past the validation checks, self-search branch. -/
theorem driverRun_self_eq (a : Args)
    (h1 : ¬(a.k ≤ 0 ∨ a.refData.length ≤ a.k)) (h2 : ¬ a.leafSize < 0)
    (hq : a.queryData = none) :
    driverRun a =
      match remapSaved [] (oldFromNew (buildTreeTop a.d a.leafSize.toNat a.refData))
          (searchMatrices a.d a.k (modeOf a.naive a.singleMode)
            (buildTreeTop a.d a.leafSize.toNat a.refData)
            (buildTreeTop a.d a.leafSize.toNat a.refData)).1
          (searchMatrices a.d a.k (modeOf a.naive a.singleMode)
            (buildTreeTop a.d a.leafSize.toNat a.refData)
            (buildTreeTop a.d a.leafSize.toNat a.refData)).2 with
      | none =>
        ⟨some a.leafSize.toNat, none, some 20, some a.naive,
          some a.singleMode, true, a.singleMode && a.naive,
          some (oldFromNew (buildTreeTop a.d a.leafSize.toNat a.refData)), some [],
          .remapOOB⟩
      | some _ =>
        ⟨some a.leafSize.toNat, none, some 20, some a.naive,
          some a.singleMode, true, a.singleMode && a.naive,
          some (oldFromNew (buildTreeTop a.d a.leafSize.toNat a.refData)), some [],
          .saved (searchMatrices a.d a.k (modeOf a.naive a.singleMode)
              (buildTreeTop a.d a.leafSize.toNat a.refData)
              (buildTreeTop a.d a.leafSize.toNat a.refData)).1
            (searchMatrices a.d a.k (modeOf a.naive a.singleMode)
              (buildTreeTop a.d a.leafSize.toNat a.refData)
              (buildTreeTop a.d a.leafSize.toNat a.refData)).2⟩ := by
  unfold driverRun
  rw [if_neg h1, if_neg h2, hq]

theorem buildTreeTop_pts_length (d ls : ℕ) (pts : List Point) :
    (buildTreeTop d ls pts).pts.length = pts.length := by
  have := (buildTreeTop_pts_perm d ls pts).length_eq
  simpa using this

theorem driverRun_fatalK_eq (a : Args) (h : a.k ≤ 0 ∨ a.refData.length ≤ a.k) :
    driverRun a = ⟨none, none, none, none, none, false, false, none, none, .fatalK⟩ := by
  unfold driverRun
  rw [if_pos h]

theorem driverRun_fatalLeaf_eq (a : Args) (h1 : ¬(a.k ≤ 0 ∨ a.refData.length ≤ a.k))
    (h2 : a.leafSize < 0) :
    driverRun a = ⟨none, none, none, none, none, false, false, none, none, .fatalLeaf⟩ := by
  unfold driverRun
  rw [if_neg h1, if_pos h2]

theorem driverRun_not_fatal (a : Args) (h1 : ¬(a.k ≤ 0 ∨ a.refData.length ≤ a.k))
    (h2 : ¬ a.leafSize < 0) :
    (driverRun a).outcome ≠ .fatalK ∧ (driverRun a).outcome ≠ .fatalLeaf := by
  cases hq : a.queryData with
  | none =>
    rw [driverRun_self_eq a h1 h2 hq]
    constructor <;> (split <;> simp)
  | some qd =>
    rw [driverRun_query_eq a qd h1 h2 hq]
    constructor <;> (split <;> simp)

/-- The separate-query-set branch always dies in the remapping loop when there is at
least one query point: `oldFromNewQueries` is empty. -/
theorem driverRun_query_oob (a : Args) (qd : List Point)
    (h1 : ¬(a.k ≤ 0 ∨ a.refData.length ≤ a.k)) (h2 : ¬ a.leafSize < 0)
    (hq : a.queryData = some qd) (hcols : qd.length ≠ 0) :
    driverRun a =
      ⟨some a.leafSize.toNat, some a.leafSize.toNat, some 20, some a.naive,
        some a.singleMode, true, a.singleMode && a.naive,
        some (oldFromNew (buildTreeTop a.d a.leafSize.toNat qd)), some [],
        .remapOOB⟩ := by
  rw [driverRun_query_eq a qd h1 h2 hq, remapSaved_nil_oob]
  rw [searchMatrices_fst_length, buildTreeTop_pts_length]
  exact hcols

/-- The self-search branch always dies in the remapping loop: `oldFromNewQueries` is
empty and validation guarantees at least two reference points. -/
theorem driverRun_self_oob (a : Args)
    (h1 : ¬(a.k ≤ 0 ∨ a.refData.length ≤ a.k)) (h2 : ¬ a.leafSize < 0)
    (hq : a.queryData = none) :
    driverRun a =
      ⟨some a.leafSize.toNat, none, some 20, some a.naive,
        some a.singleMode, true, a.singleMode && a.naive,
        some (oldFromNew (buildTreeTop a.d a.leafSize.toNat a.refData)), some [],
        .remapOOB⟩ := by
  rw [driverRun_self_eq a h1 h2 hq, remapSaved_nil_oob]
  rw [searchMatrices_fst_length, buildTreeTop_pts_length]
  omega

/-- **C6**: the program signals a fatal configuration error (and halts) exactly for
`k < 1` or `k > n − 1`, `n` the number of reference points; every `k` in `[1, n−1]`
passes the check (`allknn_main.cpp` lines 79–86). -/
theorem C6_k_validation (a : Args) :
    (driverRun a).outcome = Outcome.fatalK ↔
      (a.k < 1 ∨ a.k > a.refData.length - 1) := by
  by_cases hk : a.k ≤ 0 ∨ a.refData.length ≤ a.k
  · rw [driverRun_fatalK_eq a hk]
    constructor
    · intro _
      omega
    · intro _
      rfl
  · constructor
    · intro h
      by_cases hl : a.leafSize < 0
      · rw [driverRun_fatalLeaf_eq a hk hl] at h
        exact absurd h (by simp)
      · exact absurd h (driverRun_not_fatal a hk hl).1
    · intro hrange
      exfalso
      push_neg at hk
      omega

/-- **C7**: a negative leaf size is rejected by a configuration error before any tree is
built, and every leaf size `≥ 0` passes the leaf-size check
(`allknn_main.cpp` lines 88–93, tree construction at lines 115–116). -/
theorem C7_leaf_size_validation (a : Args) :
    (a.leafSize < 0 →
      ((driverRun a).outcome = Outcome.fatalK ∨
        (driverRun a).outcome = Outcome.fatalLeaf) ∧
      (driverRun a).refTreeLeaf = none ∧ (driverRun a).queryTreeLeaf = none) ∧
    (0 ≤ a.leafSize → (driverRun a).outcome ≠ Outcome.fatalLeaf) := by
  by_cases hk : a.k ≤ 0 ∨ a.refData.length ≤ a.k
  · rw [driverRun_fatalK_eq a hk]
    exact ⟨fun _ => ⟨Or.inl rfl, rfl, rfl⟩, fun _ => by simp⟩
  · by_cases hl : a.leafSize < 0
    · rw [driverRun_fatalLeaf_eq a hk hl]
      exact ⟨fun _ => ⟨Or.inr rfl, rfl, rfl⟩, fun h0 => absurd hl (by omega)⟩
    · exact ⟨fun h => absurd h hl, fun _ => (driverRun_not_fatal a hk hl).2⟩

/-- **C8**: on a configuration error (invalid `k` or invalid leaf size) the program
halts before tree construction, before engine construction and search, and writes no
output (`allknn_main.cpp` lines 79–99, output at lines 180–182). -/
theorem C8_config_error_halts (a : Args)
    (h : (driverRun a).outcome = Outcome.fatalK ∨
      (driverRun a).outcome = Outcome.fatalLeaf) :
    (driverRun a).refTreeLeaf = none ∧ (driverRun a).queryTreeLeaf = none ∧
    (driverRun a).allknnLeaf = none ∧ (driverRun a).searchRan = false ∧
    ∀ ds ns, (driverRun a).outcome ≠ Outcome.saved ds ns := by
  by_cases hk : a.k ≤ 0 ∨ a.refData.length ≤ a.k
  · rw [driverRun_fatalK_eq a hk]
    exact ⟨rfl, rfl, rfl, rfl, fun ds ns => by simp⟩
  · by_cases hl : a.leafSize < 0
    · rw [driverRun_fatalLeaf_eq a hk hl]
      exact ⟨rfl, rfl, rfl, rfl, fun ds ns => by simp⟩
    · rcases h with h | h
      · exact absurd h (driverRun_not_fatal a hk hl).1
      · exact absurd h (driverRun_not_fatal a hk hl).2

/-- Witness arguments: one invalid-k run and one invalid-leaf-size run. -/
def argsBadK : Args :=
  ⟨1, [fun _ => 0, fun _ => 1], none, 5, 20, false, false⟩

def argsBadLeaf : Args :=
  ⟨1, [fun _ => 0, fun _ => 1], none, 1, -3, false, false⟩

def argsGood : Args :=
  ⟨1, [fun _ => 0, fun _ => 1], none, 1, 0, false, false⟩

theorem C7_leaf_size_validation_witness :
    (argsBadLeaf.leafSize < 0 ∧
      (((driverRun argsBadLeaf).outcome = Outcome.fatalK ∨
        (driverRun argsBadLeaf).outcome = Outcome.fatalLeaf) ∧
      (driverRun argsBadLeaf).refTreeLeaf = none ∧
      (driverRun argsBadLeaf).queryTreeLeaf = none)) ∧
    ((0 : ℤ) ≤ argsGood.leafSize ∧
      (driverRun argsGood).outcome ≠ Outcome.fatalLeaf) :=
  ⟨⟨by decide, (C7_leaf_size_validation argsBadLeaf).1 (by decide)⟩,
   ⟨by decide, (C7_leaf_size_validation argsGood).2 (by decide)⟩⟩

theorem C8_config_error_halts_witness :
    ((driverRun argsBadK).outcome = Outcome.fatalK ∨
      (driverRun argsBadK).outcome = Outcome.fatalLeaf) ∧
    ((driverRun argsBadK).refTreeLeaf = none ∧
      (driverRun argsBadK).queryTreeLeaf = none ∧
      (driverRun argsBadK).allknnLeaf = none ∧
      (driverRun argsBadK).searchRan = false ∧
      ∀ ds ns, (driverRun argsBadK).outcome ≠ Outcome.saved ds ns) :=
  ⟨Or.inl (by decide),
   C8_config_error_halts argsBadK (Or.inl (by decide))⟩

/-- **C10**: in every run, the `AllkNN` engine is constructed with the literal leaf size
`20`, independent of the `--leaf_size` parameter, while the hand-built reference and
query trees receive the user-supplied leaf size (`allknn_main.cpp` lines 48, 66, 116,
139, 143, 150). -/
theorem C10_engine_leaf_is_20 (a : Args) :
    ((driverRun a).allknnLeaf = none ∨ (driverRun a).allknnLeaf = some 20) ∧
    ((driverRun a).refTreeLeaf = none ∨
      (driverRun a).refTreeLeaf = some a.leafSize.toNat) ∧
    ((driverRun a).queryTreeLeaf = none ∨
      (driverRun a).queryTreeLeaf = some a.leafSize.toNat) := by
  by_cases hk : a.k ≤ 0 ∨ a.refData.length ≤ a.k
  · rw [driverRun_fatalK_eq a hk]
    exact ⟨Or.inl rfl, Or.inl rfl, Or.inl rfl⟩
  · by_cases hl : a.leafSize < 0
    · rw [driverRun_fatalLeaf_eq a hk hl]
      exact ⟨Or.inl rfl, Or.inl rfl, Or.inl rfl⟩
    · cases hq : a.queryData with
      | none =>
        rw [driverRun_self_eq a hk hl hq]
        refine ⟨?_, ?_, ?_⟩ <;> (split <;> simp)
      | some qd =>
        rw [driverRun_query_eq a qd hk hl hq]
        refine ⟨?_, ?_, ?_⟩ <;> (split <;> simp)

/-- **C9**: the naive flag forces naive mode regardless of the single-tree flag — a run
with both `--naive` and `--single_mode` produces the same outcome as with `--naive`
alone, and (unless validation already failed) the ignored `--single_mode` is warned
about (`allknn_main.cpp` lines 95–99 and the `AllkNN` mode dispatch, spec §4.3). -/
theorem C9_naive_overrides_single (d : ℕ) (refData : List Point)
    (queryData : Option (List Point)) (k : ℕ) (leafSize : ℤ) :
    (driverRun ⟨d, refData, queryData, k, leafSize, true, true⟩).outcome =
      (driverRun ⟨d, refData, queryData, k, leafSize, true, false⟩).outcome ∧
    ((driverRun ⟨d, refData, queryData, k, leafSize, true, true⟩).warnedSingleIgnored =
        true ∨
      (driverRun ⟨d, refData, queryData, k, leafSize, true, true⟩).outcome =
        Outcome.fatalK ∨
      (driverRun ⟨d, refData, queryData, k, leafSize, true, true⟩).outcome =
        Outcome.fatalLeaf) := by
  by_cases hk : k ≤ 0 ∨ refData.length ≤ k
  · rw [driverRun_fatalK_eq _ hk, driverRun_fatalK_eq _ hk]
    exact ⟨rfl, Or.inr (Or.inl rfl)⟩
  · by_cases hl : leafSize < 0
    · rw [driverRun_fatalLeaf_eq _ hk hl, driverRun_fatalLeaf_eq _ hk hl]
      exact ⟨rfl, Or.inr (Or.inr rfl)⟩
    · cases hq : queryData with
      | none =>
        rw [driverRun_self_eq _ hk hl rfl, driverRun_self_eq _ hk hl rfl]
        constructor
        · split <;> rename_i heq <;>
            simp only [show (modeOf true true) = modeOf true false from rfl] at heq ⊢ <;>
            rw [heq]
        · split <;> simp
      | some qd =>
        rw [driverRun_query_eq _ qd hk hl rfl, driverRun_query_eq _ qd hk hl rfl]
        constructor
        · split <;> rename_i heq <;>
            simp only [show (modeOf true true) = modeOf true false from rfl] at heq ⊢ <;>
            rw [heq]
        · split <;> simp

/-- Number of query points of a run (the search output's column count). -/
def numQueries (a : Args) : ℕ :=
  match a.queryData with
  | some qd => qd.length
  | none => a.refData.length

/-- **C1** (bug exhibit): whenever validation passes and there is at least one query
point, the run aborts in the remapping loop (out-of-bounds read of the empty
`oldFromNewQueries`), so the program never writes the remapped output files at all; in
addition, the save statements (`allknn_main.cpp` lines 181–182) pass the pre-remap
`distances`/`neighbors` matrices, as the `saved` branch of `driverRun` records. -/
theorem C1_no_remapped_output_written (a : Args)
    (h1 : ¬(a.k ≤ 0 ∨ a.refData.length ≤ a.k)) (h2 : ¬ a.leafSize < 0)
    (h3 : numQueries a ≠ 0) :
    (driverRun a).outcome = Outcome.remapOOB := by
  cases hq : a.queryData with
  | none => rw [driverRun_self_oob a h1 h2 hq]
  | some qd =>
    rw [driverRun_query_oob a qd h1 h2 hq ?_]
    rw [numQueries, hq] at h3
    exact h3

theorem C1_no_remapped_output_written_witness :
    (driverRun argsGood).outcome = Outcome.remapOOB :=
  C1_no_remapped_output_written argsGood (by decide) (by decide) (by decide)

/-- **C3** (bug exhibit): with a separate query set, the permutation recorded while
building the query tree is stored into `oldFromNewRefs` (overwriting the reference
permutation, `allknn_main.cpp` line 139), while `oldFromNewQueries` stays empty, and
the remapping loop then aborts out of bounds. -/
theorem C3_query_perm_misrecorded (a : Args) (qd : List Point)
    (h1 : ¬(a.k ≤ 0 ∨ a.refData.length ≤ a.k)) (h2 : ¬ a.leafSize < 0)
    (hq : a.queryData = some qd) (hc : qd.length ≠ 0) :
    (driverRun a).oldFromNewRefsFinal =
      some (oldFromNew (buildTreeTop a.d a.leafSize.toNat qd)) ∧
    (driverRun a).oldFromNewQueriesFinal = some [] ∧
    (driverRun a).outcome = Outcome.remapOOB := by
  rw [driverRun_query_oob a qd h1 h2 hq hc]
  exact ⟨rfl, rfl, rfl⟩

def argsQuery : Args :=
  ⟨1, [fun _ => 0, fun _ => 1], some [fun _ => 2], 1, 0, false, false⟩

theorem C3_query_perm_misrecorded_witness :
    (driverRun argsQuery).oldFromNewRefsFinal =
      some (oldFromNew (buildTreeTop argsQuery.d argsQuery.leafSize.toNat
        [fun _ => 2])) ∧
    (driverRun argsQuery).oldFromNewQueriesFinal = some [] ∧
    (driverRun argsQuery).outcome = Outcome.remapOOB :=
  C3_query_perm_misrecorded argsQuery [fun _ => 2] (by decide) (by decide) rfl
    (by decide)

/-- **C4** (bug exhibit): in a validated self-search run, the query-side permutation at
remap time is the empty vector — not the reference permutation, which is nonempty — so
the remapping loop's access `oldFromNewQueries[0]` is out of bounds and the run aborts
(`allknn_main.cpp` lines 120, 148–153, 168–178). -/
theorem C4_self_search_query_perm_oob (a : Args)
    (h1 : ¬(a.k ≤ 0 ∨ a.refData.length ≤ a.k)) (h2 : ¬ a.leafSize < 0)
    (hq : a.queryData = none) :
    (driverRun a).oldFromNewQueriesFinal = some [] ∧
    (driverRun a).oldFromNewRefsFinal ≠ some [] ∧
    (driverRun a).outcome = Outcome.remapOOB := by
  rw [driverRun_self_oob a h1 h2 hq]
  refine ⟨rfl, ?_, rfl⟩
  intro hcon
  simp only [Option.some.injEq] at hcon
  have hlen : (oldFromNew (buildTreeTop a.d a.leafSize.toNat a.refData)).length =
      a.refData.length := by
    rw [oldFromNew, List.length_map, buildTreeTop_pts_length]
  rw [hcon] at hlen
  simp only [List.length_nil] at hlen
  omega

theorem C4_self_search_query_perm_oob_witness :
    (driverRun argsGood).oldFromNewQueriesFinal = some [] ∧
    (driverRun argsGood).oldFromNewRefsFinal ≠ some [] ∧
    (driverRun argsGood).outcome = Outcome.remapOOB :=
  C4_self_search_query_perm_oob argsGood (by decide) (by decide) rfl

/-- **C2**: the permutation recorded at tree construction and the index map applied at
remapping are mutually inverse on `[0, n)`: remapping the tree-internal position of an
original index recovers that index, and conversely (spec §4.5, §8; tree construction
modelled from spec §4.2). -/
theorem C2_permutation_round_trip (d ls : ℕ) (pts : List Point) :
    (∀ o, o < pts.length →
      (oldFromNew (buildTreeTop d ls pts)).indexOf o <
          (oldFromNew (buildTreeTop d ls pts)).length ∧
      (oldFromNew (buildTreeTop d ls pts)).getD
          ((oldFromNew (buildTreeTop d ls pts)).indexOf o) 0 = o) ∧
    (∀ i, i < (oldFromNew (buildTreeTop d ls pts)).length →
      (oldFromNew (buildTreeTop d ls pts)).indexOf
          ((oldFromNew (buildTreeTop d ls pts)).getD i 0) = i) := by
  have hperm := oldFromNew_perm_range d ls pts
  have hnd := oldFromNew_nodup d ls pts
  constructor
  · intro o ho
    have hmem : o ∈ oldFromNew (buildTreeTop d ls pts) :=
      hperm.mem_iff.2 (List.mem_range.2 ho)
    have hidx := List.indexOf_lt_length.2 hmem
    refine ⟨hidx, ?_⟩
    rw [List.getD_eq_getElem _ _ hidx]
    exact List.getElem_indexOf hidx
  · intro i hi
    rw [List.getD_eq_getElem _ _ hi]
    exact List.indexOf_getElem hnd i hi

theorem C2_permutation_round_trip_witness :
    ((0 : ℕ) < 2 ∧
      ((oldFromNew (buildTreeTop 1 0 [fun _ => 0, fun _ => 1])).indexOf 0 <
          (oldFromNew (buildTreeTop 1 0 [fun _ => 0, fun _ => 1])).length ∧
        (oldFromNew (buildTreeTop 1 0 [fun _ => 0, fun _ => 1])).getD
          ((oldFromNew (buildTreeTop 1 0 [fun _ => 0, fun _ => 1])).indexOf 0) 0 = 0)) ∧
    ((0 : ℕ) < (oldFromNew (buildTreeTop 1 0 [fun _ => 0, fun _ => 1])).length ∧
      (oldFromNew (buildTreeTop 1 0 [fun _ => 0, fun _ => 1])).indexOf
        ((oldFromNew (buildTreeTop 1 0 [fun _ => 0, fun _ => 1])).getD 0 0) = 0) :=
  ⟨⟨by decide,
    (C2_permutation_round_trip 1 0 [fun _ => 0, fun _ => 1]).1 0 (by decide)⟩,
   ⟨by rw [oldFromNew, List.length_map, buildTreeTop_pts_length]; decide,
    (C2_permutation_round_trip 1 0 [fun _ => 0, fun _ => 1]).2 0
      (by rw [oldFromNew, List.length_map, buildTreeTop_pts_length]; decide)⟩⟩

/-- **C5**: in every search mode — naive, single-tree on the built reference tree, and
dual-tree on the built query and reference trees — the result for every query point is
an exact set of `k` nearest reference points with exact (squared) distances: pruning
never discards a branch that could contain a better candidate (spec §4.3; engines
modelled from the spec, as `NeighborSearch` is not under `src/`). -/
theorem C5_all_modes_exact (d k ls : ℕ) (hk : 1 ≤ k) (refs queries : List Point)
    (q : Point) :
    exactKNN d k refs q (naiveSearch d k refs q) ∧
    exactKNN d k refs q (singleRun d k ls refs q) ∧
    ((∀ e ∈ dualRun d k ls refs queries, exactKNN d k refs e.1.2 e.2) ∧
      List.Perm ((dualRun d k ls refs queries).map Prod.fst) queries.enum) :=
  ⟨naiveSearch_exact d k hk refs q, singleRun_exact d k ls hk refs q,
    dualRun_exact d k ls hk refs queries⟩

theorem C5_all_modes_exact_witness :
    1 ≤ 1 ∧
    (exactKNN 1 1 [fun _ => 0, fun _ => 1] (fun _ => 0)
        (naiveSearch 1 1 [fun _ => 0, fun _ => 1] (fun _ => 0)) ∧
      exactKNN 1 1 [fun _ => 0, fun _ => 1] (fun _ => 0)
        (singleRun 1 1 0 [fun _ => 0, fun _ => 1] (fun _ => 0)) ∧
      ((∀ e ∈ dualRun 1 1 0 [fun _ => 0, fun _ => 1] [fun _ => 2],
          exactKNN 1 1 [fun _ => 0, fun _ => 1] e.1.2 e.2) ∧
        List.Perm
          ((dualRun 1 1 0 [fun _ => 0, fun _ => 1] [fun _ => 2]).map Prod.fst)
          ([fun _ => 2] : List Point).enum)) :=
  ⟨by decide,
    C5_all_modes_exact 1 1 0 (by decide) [fun _ => 0, fun _ => 1] [fun _ => 2]
      (fun _ => 0)⟩

end AllKnn
